import Mathlib

/-!
Verification of the `algebra` repository: a prime-order finite field `Fp<P>`
(src/field/finite_field/mod.rs), dense polynomials over a ring
(src/polynomial/mod.rs, src/polynomial/trait_impls.rs), Lagrange
interpolation (src/polynomial/lagrange.rs, and the stub in
src/polynomial/mod.rs), and Shamir secret sharing
(src/bin/shamir_secret_sharing.rs).

The Rust code is embedded shallowly: `Fp<P>` becomes `Fin P` (the struct
stores a `u64` that every constructor and operation keeps reduced below `P`),
polynomials become coefficient lists, panics become `Option.none`, and the
`u64`/`usize` arithmetic whose overflow behaviour matters is modelled with an
explicit `2 ^ 64` bound (Rust checked arithmetic: an overflowing operation
fails instead of returning a value).
-/

/-! ## Finite field `Fp<P>` (src/field/finite_field/mod.rs) -/

namespace Fp

/-- Embedding of `Fp::new`: `Self(value % P)`. -/
def new (P : ℕ) [NeZero P] (v : ℕ) : Fin P :=
  ⟨v % P, Nat.mod_lt _ (Nat.pos_of_ne_zero (NeZero.ne P))⟩

/-- Embedding of `RingBase::zero` for `Fp`: `Fp(0)`. -/
def zero (P : ℕ) [NeZero P] : Fin P :=
  ⟨0, Nat.pos_of_ne_zero (NeZero.ne P)⟩

/-- Embedding of `RingBase::one` for `Fp`: `Fp(1)` (for any modulus `P ≥ 2`,
which includes every prime, `1 % P = 1`, so this is the raw value `1` the
source stores). -/
def one (P : ℕ) [NeZero P] : Fin P :=
  ⟨1 % P, Nat.mod_lt _ (Nat.pos_of_ne_zero (NeZero.ne P))⟩

/-- Embedding of `Add for Fp`: `sum = a + b; if sum >= P { sum - P } else { sum }`.
Both operands are below `P`, so the result is again below `P`. -/
def add {P : ℕ} (a b : Fin P) : Fin P :=
  if h : P ≤ a.val + b.val then
    ⟨a.val + b.val - P, by omega⟩
  else
    ⟨a.val + b.val, by omega⟩

/-- Embedding of `Sub for Fp`: `if a >= b { a - b } else { (a + P) - b }`. -/
def sub {P : ℕ} (a b : Fin P) : Fin P :=
  if h : b.val ≤ a.val then
    ⟨a.val - b.val, by have := a.isLt; omega⟩
  else
    ⟨a.val + P - b.val, by have := b.isLt; omega⟩

/-- Embedding of `Mul for Fp`: the product is formed in `u128` (wide enough for
any two `u64` operands, so no overflow) and reduced: `(a * b) % P`. -/
def mul {P : ℕ} (a b : Fin P) : Fin P :=
  ⟨(a.val * b.val) % P, Nat.mod_lt _ a.pos⟩

/-- Embedding of the `while exp > 0` loop of `Fp::pow` (square and multiply).
The source loop halves `exp` each iteration; the extra `fuel` argument makes
the recursion structural, and any `fuel ≥ exp` yields the loop's behaviour. -/
def powGo {P : ℕ} [NeZero P] : ℕ → Fin P → Fin P → ℕ → Fin P
  | 0, _, result, _ => result
  | fuel + 1, base, result, exp =>
    if exp = 0 then result
    else powGo fuel (mul base base) (if exp % 2 = 1 then mul result base else result) (exp / 2)

/-- Embedding of `Fp::pow`: `base = self`, `result = one`, then the loop. -/
def pow {P : ℕ} [NeZero P] (a : Fin P) (exp : ℕ) : Fin P :=
  powGo exp a (one P) exp

/-- Embedding of `FieldBase::inverse` for `Fp`: panics on `Fp(0)` (modelled as
`none`), otherwise `a.pow(P - 2)`. -/
def inverse {P : ℕ} [NeZero P] (a : Fin P) : Option (Fin P) :=
  if a.val = 0 then none else some (pow a (P - 2))

/-- Embedding of `Div for Fp`: `self * other.inverse()`, propagating the
inverse-of-zero panic. -/
def div {P : ℕ} [NeZero P] (a b : Fin P) : Option (Fin P) :=
  (inverse b).map (fun binv => mul a binv)

/-- Modelled from the spec: `Fp` negation is not present under src/ (only its
use sites are), and the spec's ring contract makes it the additive inverse,
i.e. `0 - a` with the embedded subtraction. -/
def neg {P : ℕ} [NeZero P] (a : Fin P) : Fin P :=
  sub (zero P) a

/-! ### Checked `u64` variants of the `Fp` arithmetic

The definitions above compute in `ℕ`; the Rust source computes `a + b` and
`(a + P)` in `u64`, where a result at or above `2 ^ 64` is an arithmetic
failure (checked semantics).  These variants record that bound; the bridge
lemmas below show they agree with the total versions whenever `P ≤ 2 ^ 63`. -/

/-- Checked `u64` addition: fails when the sum does not fit in 64 bits. -/
def checkedAdd (a b : ℕ) : Option ℕ :=
  if a + b < 2 ^ 64 then some (a + b) else none

/-- Variant of `Add for Fp` with the `u64` overflow of `self.0 + other.0` made explicit. -/
def addU64 (P a b : ℕ) : Option ℕ :=
  (checkedAdd a b).map (fun sum => if P ≤ sum then sum - P else sum)

/-- Variant of `Sub for Fp` with the `u64` overflow of `self.0 + P` made explicit
(the final subtractions never underflow when `b < P`). -/
def subU64 (P a b : ℕ) : Option ℕ :=
  if b ≤ a then some (a - b) else (checkedAdd a P).map (fun t => t - b)

/-- Variant of `Mul for Fp`: the source computes in `u128`; two `u64` operands can never overflow it,
so the checked variant always succeeds with `(a * b) % P`. -/
def mulU64 (P a b : ℕ) : Option ℕ :=
  some ((a * b) % P)

/-- For any modulus at most `2^63`, the `u64` sum `self.0 + other.0` of
`Add for Fp` stays below `2^64`, so the checked source arithmetic succeeds
and agrees with the total embedding `Fp.add`.  Theorems that run field
additions over an arbitrary modulus therefore carry a `P ≤ 2^63`
hypothesis: on that domain the total embedding is exactly the source. -/
theorem addU64_eq_add {P : ℕ} (hP : P ≤ 2 ^ 63) (a b : Fin P) :
    addU64 P a.val b.val = some ((add a b).val) := by
  have ha := a.isLt
  have hb := b.isLt
  rw [addU64, checkedAdd, if_pos (by omega)]
  show some (if P ≤ a.val + b.val then a.val + b.val - P else a.val + b.val) = _
  congr 1
  rw [add]
  by_cases h : P ≤ a.val + b.val
  · rw [dif_pos h, if_pos h]
  · rw [dif_neg h, if_neg h]

/-- For any modulus at most `2^63`, the `u64` sum `self.0 + P` in the borrow
branch of `Sub for Fp` stays below `2^64`, so the checked source arithmetic
succeeds and agrees with the total embedding `Fp.sub` (same domain
restriction as `Fp.addU64_eq_add`). -/
theorem subU64_eq_sub {P : ℕ} (hP : P ≤ 2 ^ 63) (a b : Fin P) :
    subU64 P a.val b.val = some ((sub a b).val) := by
  have ha := a.isLt
  rw [subU64, sub]
  by_cases h : b.val ≤ a.val
  · rw [if_pos h, dif_pos h]
  · rw [if_neg h, dif_neg h, checkedAdd, if_pos (by omega)]
    rfl

end Fp

/-! ## Bridge from the embedded field to `ZMod P` -/

namespace Fp

/-- The stored value of an embedded field element, read in `ZMod P`. -/
def toZMod {P : ℕ} (a : Fin P) : ZMod P :=
  (a.val : ZMod P)

theorem toZMod_injective {P : ℕ} [NeZero P] : Function.Injective (toZMod (P := P)) := by
  intro a b h
  have ha : ((a.val : ZMod P)).val = a.val := ZMod.val_cast_of_lt a.isLt
  have hb : ((b.val : ZMod P)).val = b.val := ZMod.val_cast_of_lt b.isLt
  apply Fin.ext
  rw [← ha, ← hb]
  exact congrArg ZMod.val h

@[simp] theorem toZMod_zero {P : ℕ} [NeZero P] : toZMod (zero P) = 0 := by
  simp [toZMod, zero]

@[simp] theorem toZMod_one {P : ℕ} [NeZero P] : toZMod (one P) = 1 := by
  simp [toZMod, one, ZMod.natCast_mod]

@[simp] theorem toZMod_new {P : ℕ} [NeZero P] (v : ℕ) : toZMod (new P v) = (v : ZMod P) := by
  simp [toZMod, new, ZMod.natCast_mod]

@[simp] theorem toZMod_add {P : ℕ} (a b : Fin P) :
    toZMod (add a b) = toZMod a + toZMod b := by
  unfold add toZMod
  split
  · rename_i h
    push_cast [Nat.cast_sub h]
    simp [ZMod.natCast_self]
  · push_cast
    ring

@[simp] theorem toZMod_sub {P : ℕ} (a b : Fin P) :
    toZMod (sub a b) = toZMod a - toZMod b := by
  unfold sub toZMod
  split
  · rename_i h
    push_cast [Nat.cast_sub h]
    ring
  · rename_i h
    have hb := b.isLt
    have h1 : b.val ≤ a.val + P := by omega
    push_cast [Nat.cast_sub h1]
    simp [ZMod.natCast_self]

@[simp] theorem toZMod_mul {P : ℕ} (a b : Fin P) :
    toZMod (mul a b) = toZMod a * toZMod b := by
  unfold mul toZMod
  push_cast [ZMod.natCast_mod]
  ring

@[simp] theorem toZMod_neg {P : ℕ} [NeZero P] (a : Fin P) :
    toZMod (neg a) = -toZMod a := by
  unfold neg
  rw [toZMod_sub, toZMod_zero]
  ring

theorem toZMod_powGo {P : ℕ} [NeZero P] (fuel : ℕ) (base result : Fin P) (exp : ℕ)
    (hfuel : exp ≤ fuel) :
    toZMod (powGo fuel base result exp) = toZMod result * toZMod base ^ exp := by
  induction fuel generalizing base result exp with
  | zero =>
    have : exp = 0 := Nat.le_zero.mp hfuel
    subst this
    simp [powGo]
  | succ fuel ih =>
    by_cases hexp : exp = 0
    · subst hexp
      simp [powGo]
    · rw [powGo, if_neg hexp]
      have hdiv : exp / 2 ≤ fuel := by omega
      rw [ih _ _ _ hdiv]
      have hsplit : exp = 2 * (exp / 2) + exp % 2 := (Nat.div_add_mod exp 2).symm ▸ by ring
      by_cases hpar : exp % 2 = 1
      · rw [if_pos hpar]
        rw [toZMod_mul, toZMod_mul]
        calc toZMod result * toZMod base * (toZMod base * toZMod base) ^ (exp / 2)
            = toZMod result * (toZMod base ^ (2 * (exp / 2) + 1)) := by ring
          _ = toZMod result * toZMod base ^ exp := by rw [← hpar]; rw [← hsplit]
      · rw [if_neg hpar]
        have hpar0 : exp % 2 = 0 := Nat.mod_two_eq_zero_or_one exp |>.resolve_right hpar
        rw [toZMod_mul]
        calc toZMod result * (toZMod base * toZMod base) ^ (exp / 2)
            = toZMod result * toZMod base ^ (2 * (exp / 2) + 0) := by ring
          _ = toZMod result * toZMod base ^ exp := by rw [← hpar0, ← hsplit]

@[simp] theorem toZMod_pow {P : ℕ} [NeZero P] (a : Fin P) (exp : ℕ) :
    toZMod (pow a exp) = toZMod a ^ exp := by
  unfold pow
  rw [toZMod_powGo exp a (one P) exp le_rfl, toZMod_one, one_mul]

/-- The embedded inverse succeeds exactly on nonzero elements, and then
computes the `ZMod` inverse (Fermat: `a ^ (P - 2)`), for prime `P`. -/
theorem toZMod_inverse {P : ℕ} [NeZero P] (hP : P.Prime) (a : Fin P) (ha : a ≠ zero P) :
    ∃ b, inverse a = some b ∧ toZMod b = (toZMod a)⁻¹ := by
  haveI : Fact P.Prime := ⟨hP⟩
  have hval : a.val ≠ 0 := by
    intro h
    exact ha (Fin.ext (by simpa [zero] using h))
  refine ⟨pow a (P - 2), by simp [inverse, hval], ?_⟩
  rw [toZMod_pow]
  have haz : toZMod a ≠ 0 := by
    intro h
    exact ha (toZMod_injective (by simpa using h))
  have hfermat : toZMod a ^ (P - 1) = 1 := ZMod.pow_card_sub_one_eq_one haz
  have h2 : 2 ≤ P := hP.two_le
  have hstep : toZMod a * toZMod a ^ (P - 2) = 1 := by
    have : toZMod a * toZMod a ^ (P - 2) = toZMod a ^ (P - 1) := by
      rw [← pow_succ']
      congr 1
      omega
    rw [this, hfermat]
  exact (inv_eq_of_mul_eq_one_right hstep).symm

theorem toZMod_div {P : ℕ} [NeZero P] (hP : P.Prime) (a b : Fin P) (hb : b ≠ zero P) :
    ∃ c, div a b = some c ∧ toZMod c = toZMod a * (toZMod b)⁻¹ := by
  obtain ⟨binv, hsome, hinv⟩ := toZMod_inverse hP b hb
  exact ⟨mul a binv, by simp [div, hsome], by rw [toZMod_mul, hinv]⟩

@[simp] theorem inverse_zero {P : ℕ} [NeZero P] : inverse (zero P) = none := by
  simp [inverse, zero]

@[simp] theorem div_zero_right {P : ℕ} [NeZero P] (a : Fin P) : div a (zero P) = none := by
  simp [div]

end Fp

/-! ## Dense polynomials (src/polynomial/mod.rs, src/polynomial/trait_impls.rs)

The Rust `Polynomial<T>` is a `Vec<T>` of coefficients (index `i` holds the
coefficient of `x^i`), generic over any `RingBase` type with the needed
arithmetic; a `RingOps` record packages those trait methods. -/

/-- The coefficient-type operations the polynomial code is generic over:
`RingBase::zero`, `RingBase::one`, and the `Add`/`Sub`/`Mul`/`Neg` impls. -/
structure RingOps (T : Type) where
  zero : T
  one : T
  add : T → T → T
  sub : T → T → T
  mul : T → T → T
  neg : T → T

/-- The operations of the embedded field `Fp<P>`. -/
def fpOps (P : ℕ) [NeZero P] : RingOps (Fin P) :=
  ⟨Fp.zero P, Fp.one P, Fp.add, Fp.sub, Fp.mul, Fp.neg⟩

@[simp] theorem fpOps_zero (P : ℕ) [NeZero P] : (fpOps P).zero = Fp.zero P := rfl

@[simp] theorem fpOps_one (P : ℕ) [NeZero P] : (fpOps P).one = Fp.one P := rfl

@[simp] theorem fpOps_add (P : ℕ) [NeZero P] : (fpOps P).add = Fp.add := rfl

@[simp] theorem fpOps_sub (P : ℕ) [NeZero P] : (fpOps P).sub = Fp.sub := rfl

@[simp] theorem fpOps_mul (P : ℕ) [NeZero P] : (fpOps P).mul = Fp.mul := rfl

@[simp] theorem fpOps_neg (P : ℕ) [NeZero P] : (fpOps P).neg = Fp.neg := rfl

namespace Poly

variable {T : Type} [DecidableEq T]

/-- Embedding of `Polynomial::normalize`: pop the last coefficient while it
equals zero (strip high-order zero terms). -/
def normalize (R : RingOps T) (l : List T) : List T :=
  (l.reverse.dropWhile (fun c => c = R.zero)).reverse

/-- Embedding of `Polynomial::from_coeffs`: `Self { coeffs }` — the list is
stored as given; the source does NOT call `normalize` here. -/
def fromCoeffs (l : List T) : List T :=
  l

/-- Embedding of `Polynomial::zero`: empty coefficient vector. -/
def zeroPoly : List T :=
  []

/-- Embedding of `Polynomial::degree`: `None` on an empty coefficient vector,
else `len - 1`. -/
def degree (l : List T) : Option ℕ :=
  match l with
  | [] => none
  | _ => some (l.length - 1)

/-- Modelled from the spec: `Polynomial::constant_term` is used by
`reconstruct_secret` but not present under src/; per the spec it is the
coefficient at index 0, absent for the zero polynomial. -/
def constantTerm (l : List T) : Option T :=
  l.head?

/-- Embedding of `Polynomial::evaluate` (Horner): fold over the reversed
coefficients with `acc = acc * x + coeff`, starting from zero. -/
def evaluate (R : RingOps T) (x : T) (l : List T) : T :=
  l.reverse.foldl (fun acc coeff => R.add (R.mul acc x) coeff) R.zero

/-- The element-wise part of `AddAssign for Polynomial`: `self` is resized
with zeros up to `rhs.len()`, then `self[i] += rhs[i]` for each `i` below
`rhs.len()`. -/
def addRaw (R : RingOps T) : List T → List T → List T
  | p, [] => p
  | [], c :: q => R.add R.zero c :: addRaw R [] q
  | a :: p, c :: q => R.add a c :: addRaw R p q

/-- Embedding of `AddAssign for Polynomial` (hence `Add`): element-wise
addition followed by `normalize`. -/
def polyAdd (R : RingOps T) (p q : List T) : List T :=
  normalize R (addRaw R p q)

/-- Coefficient `k` of the convolution in `MulAssign for Polynomial`: the
source initializes `new_coeffs` with zeros and accumulates
`new_coeffs[i + j] += self[i] * rhs[j]` with `i` outermost, so entry `k`
receives, in increasing `i` order, every product with `i + j = k`. -/
def convEntry (R : RingOps T) (p q : List T) (k : ℕ) : T :=
  (List.range p.length).foldl
    (fun acc i =>
      if i ≤ k ∧ k - i < q.length then
        R.add acc (R.mul (p.getD i R.zero) (q.getD (k - i) R.zero))
      else acc)
    R.zero

/-- The full convolution buffer of `MulAssign for Polynomial`: length
`self.len() + rhs.len() - 1`. -/
def convolve (R : RingOps T) (p q : List T) : List T :=
  (List.range (p.length + q.length - 1)).map (convEntry R p q)

/-- Embedding of `MulAssign for Polynomial` (hence `Mul`): if either operand
has undefined degree (empty coefficients) the result is the zero polynomial;
otherwise the convolution, normalized. -/
def polyMul (R : RingOps T) (p q : List T) : List T :=
  match p, q with
  | [], _ => []
  | _, [] => []
  | _, _ => normalize R (convolve R p q)

/-- Embedding of `MulAssign<T> for Polynomial<T>` (polynomial times scalar):
every coefficient is multiplied by the scalar, then `normalize`. -/
def smul (R : RingOps T) (p : List T) (s : T) : List T :=
  normalize R (p.map (fun c => R.mul c s))

/-- Modelled from the spec: `Polynomial::single_root(x0)` is used by the
interpolation but not present under src/; per the spec it builds the degree-1
polynomial `x - x0`, i.e. coefficients `[-x0, 1]`. -/
def singleRoot (R : RingOps T) (x0 : T) : List T :=
  [R.neg x0, R.one]

end Poly

/-! ## Lagrange interpolation -/

/-- Embedding of the public `lagrange_interpolation` defined directly in
src/polynomial/mod.rs: after the empty-input early return, the outer loop
over the points has an empty body, so the zero accumulator is returned. -/
def lagrangeModRs {T : Type} (points : List (T × T)) : List T :=
  if points.isEmpty then []
  else points.foldl (fun poly _ => poly) []

/-- Embedding of the inner product loop of `lagrange_interpolation`
(src/polynomial/lagrange.rs): for each enumerated point `(j, (x_j, _))` with
`j ≠ i`, multiply the basis accumulator by `single_root(x_j)` and the
denominator by `x_i - x_j`. -/
def basisAux (P : ℕ) [NeZero P] (xi : Fin P) (i : ℕ) :
    List (Fin P × Fin P) → ℕ → List (Fin P) × Fin P → List (Fin P) × Fin P
  | [], _, st => st
  | (xj, _) :: rest, j, (pl, dn) =>
    if i = j then basisAux P xi i rest (j + 1) (pl, dn)
    else
      basisAux P xi i rest (j + 1)
        (Poly.polyMul (fpOps P) pl (Poly.singleRoot (fpOps P) xj),
         (fpOps P).mul dn ((fpOps P).sub xi xj))

/-- Embedding of the outer loop of `lagrange_interpolation`
(src/polynomial/lagrange.rs), instantiated at the field `Fp<P>`: for each
enumerated point `(i, (x_i, y_i))` run the product loop over the full point
list, then `poly += poly_i * (y_i / denom)`; the division panics (`none`)
when the denominator is the zero element. -/
def lagrangeGo (P : ℕ) [NeZero P] (pts : List (Fin P × Fin P)) :
    List (Fin P × Fin P) → ℕ → List (Fin P) → Option (List (Fin P))
  | [], _, acc => some acc
  | (xi, yi) :: rest, i, acc =>
    match Fp.div yi (basisAux P xi i pts 0 ([(fpOps P).one], (fpOps P).one)).2 with
    | none => none
    | some c =>
      lagrangeGo P pts rest (i + 1)
        (Poly.polyAdd (fpOps P) acc
          (Poly.smul (fpOps P) (basisAux P xi i pts 0 ([(fpOps P).one], (fpOps P).one)).1 c))

/-- Embedding of `lagrange_interpolation` from src/polynomial/lagrange.rs at
the field `Fp<P>`: start from the zero polynomial and index 0. -/
def lagrangeInterpolation (P : ℕ) [NeZero P] (pts : List (Fin P × Fin P)) :
    Option (List (Fin P)) :=
  lagrangeGo P pts pts 0 []

/-! ## Shamir secret sharing (src/bin/shamir_secret_sharing.rs) -/

/-- Checked `usize` subtraction: underflow is an arithmetic failure. -/
def checkedSubUsize (a b : ℕ) : Option ℕ :=
  if b ≤ a then some (a - b) else none

/-- Embedding of the polynomial-construction `loop` of `split_secret`.  The
randomness source is a stream of `u64` draws; `share_threshold - 1` is
`usize` arithmetic that underflows (fails) for threshold 0.  The coefficient
vector is the secret followed by `share_threshold - 1` reduced draws; the
loop breaks when `degree()` (which never strips coefficients — `from_coeffs`
stores the list as is) equals `share_threshold - 1`, else retries with fresh
draws.  Fuel makes the recursion structural; `draws.length + 1` steps can
never be exhausted before the draw list is. -/
def buildGo (P : ℕ) [NeZero P] (secret : Fin P) (t : ℕ) :
    ℕ → List ℕ → Option (List (Fin P))
  | 0, _ => none
  | fuel + 1, draws =>
    match checkedSubUsize t 1 with
    | none => none
    | some tm1 =>
      if tm1 ≤ draws.length then
        match Poly.degree (Poly.fromCoeffs (secret :: (draws.take tm1).map (Fp.new P))) with
        | none => none
        | some d =>
          if d = tm1 then some (secret :: (draws.take tm1).map (Fp.new P))
          else buildGo P secret t fuel (draws.drop tm1)
      else none

/-- The polynomial built by `split_secret`'s loop. -/
def buildPoly (P : ℕ) [NeZero P] (secret : Fin P) (t : ℕ) (draws : List ℕ) :
    Option (List (Fin P)) :=
  buildGo P secret t (draws.length + 1) draws

/-- Embedding of `split_secret`: panics when the threshold exceeds the number
of shares; otherwise builds the random polynomial and evaluates it at the
abscissas `Fp::new(1), …, Fp::new(n)`. -/
def splitSecret (P : ℕ) [NeZero P] (secret : Fin P) (t n : ℕ) (draws : List ℕ) :
    Option (List (Fin P × Fin P)) :=
  if n < t then none
  else
    (buildPoly P secret t draws).map fun poly =>
      (List.range n).map fun k =>
        (Fp.new P (k + 1), Poly.evaluate (fpOps P) (Fp.new P (k + 1)) poly)

/-- Embedding of `reconstruct_secret`: interpolate the shares' pairs and
return the constant term; the `expect` on a missing constant term and any
interpolation panic are `none`. -/
def reconstructSecret (P : ℕ) [NeZero P] (shares : List (Fin P × Fin P)) :
    Option (Fin P) :=
  (lagrangeInterpolation P shares).bind fun poly => Poly.constantTerm poly

/-! ## Bridge from coefficient lists to `Polynomial (ZMod P)` -/

/-- Reading of an embedded coefficient list as a Mathlib polynomial over
`ZMod P` (proof-side only; the embedded program definitions stay computable). -/
noncomputable def toPoly (P : ℕ) : List (Fin P) → Polynomial (ZMod P)
  | [] => 0
  | c :: l => Polynomial.C (Fp.toZMod c) + Polynomial.X * toPoly P l

@[simp] theorem toPoly_nil (P : ℕ) : toPoly P [] = 0 :=
  rfl

@[simp] theorem toPoly_cons (P : ℕ) (c : Fin P) (l : List (Fin P)) :
    toPoly P (c :: l) = Polynomial.C (Fp.toZMod c) + Polynomial.X * toPoly P l :=
  rfl

theorem toPoly_coeff (P : ℕ) [NeZero P] (l : List (Fin P)) (i : ℕ) :
    (toPoly P l).coeff i = Fp.toZMod (l.getD i (Fp.zero P)) := by
  induction l generalizing i with
  | nil => simp
  | cons c l ih =>
    cases i with
    | zero =>
      simp [Polynomial.coeff_add, Polynomial.mul_coeff_zero, Polynomial.coeff_X_zero]
    | succ i =>
      simp [Polynomial.coeff_add, Polynomial.coeff_X_mul, ih,
        Polynomial.coeff_C, Nat.succ_ne_zero]

theorem toPoly_coeff_of_le (P : ℕ) [NeZero P] (l : List (Fin P)) (i : ℕ)
    (h : l.length ≤ i) : (toPoly P l).coeff i = 0 := by
  rw [toPoly_coeff, List.getD_eq_default _ _ h, Fp.toZMod_zero]

theorem toPoly_eq_zero (P : ℕ) [NeZero P] (s : List (Fin P))
    (h : ∀ x ∈ s, x = Fp.zero P) : toPoly P s = 0 := by
  induction s with
  | nil => rfl
  | cons c s ih =>
    have hc : c = Fp.zero P := h c (List.mem_cons_self c s)
    rw [toPoly_cons, hc, Fp.toZMod_zero, ih (fun x hx => h x (List.mem_cons_of_mem _ hx))]
    simp

theorem toPoly_append_zeros (P : ℕ) [NeZero P] (m s : List (Fin P))
    (h : ∀ x ∈ s, x = Fp.zero P) : toPoly P (m ++ s) = toPoly P m := by
  induction m with
  | nil => simpa using toPoly_eq_zero P s h
  | cons c m ih => simp [ih]

namespace Poly

theorem head_dropWhile_false {T : Type} (p : T → Bool) :
    ∀ (l : List T) (x : T), (l.dropWhile p).head? = some x → p x = false
  | [], x => by simp [List.dropWhile]
  | c :: l, x => by
    by_cases hc : p c
    · rw [List.dropWhile_cons_of_pos hc]
      exact head_dropWhile_false p l x
    · rw [List.dropWhile_cons_of_neg hc]
      intro h
      cases Option.some.inj h
      exact Bool.of_not_eq_true hc

/-- The function `normalize` splits the list into the result and an all-zero suffix. -/
theorem normalize_spec {T : Type} [DecidableEq T] (R : RingOps T) (l : List T) :
    ∃ s, l = normalize R l ++ s ∧ ∀ x ∈ s, x = R.zero := by
  refine ⟨(l.reverse.takeWhile (fun c => c = R.zero)).reverse, ?_, ?_⟩
  · conv_lhs =>
      rw [← l.reverse_reverse,
        ← List.takeWhile_append_dropWhile (p := fun c => decide (c = R.zero)) (l := l.reverse),
        List.reverse_append]
    rfl
  · intro x hx
    rw [List.mem_reverse] at hx
    have := List.mem_takeWhile_imp hx
    simpa using this

/-- The result of `normalize` has no trailing zero coefficient. -/
theorem normalize_getLast {T : Type} [DecidableEq T] (R : RingOps T) (l : List T)
    (x : T) (h : (normalize R l).getLast? = some x) : x ≠ R.zero := by
  unfold normalize at h
  rw [List.getLast?_reverse] at h
  have := head_dropWhile_false (fun c => c = R.zero) l.reverse x h
  simpa using this

theorem normalize_idem {T : Type} [DecidableEq T] (R : RingOps T) (l : List T)
    (h : ∀ x, l.getLast? = some x → x ≠ R.zero) : normalize R l = l := by
  unfold normalize
  cases hl : l.reverse with
  | nil =>
    have : l = [] := by simpa using congrArg List.reverse hl
    simp [this]
  | cons c r =>
    have hc : l.getLast? = some c := by
      rw [← List.head?_reverse, hl]
      rfl
    have : ¬(c = R.zero) := h c hc
    rw [List.dropWhile_cons_of_neg (by simpa using this)]
    rw [← hl, List.reverse_reverse]

end Poly

theorem toPoly_normalize (P : ℕ) [NeZero P] (l : List (Fin P)) :
    toPoly P (Poly.normalize (fpOps P) l) = toPoly P l := by
  obtain ⟨s, hsplit, hzero⟩ := Poly.normalize_spec (fpOps P) l
  conv_rhs => rw [hsplit]
  rw [toPoly_append_zeros]
  intro x hx
  simpa [fpOps] using hzero x hx

theorem toPoly_addRaw (P : ℕ) [NeZero P] (p q : List (Fin P)) :
    toPoly P (Poly.addRaw (fpOps P) p q) = toPoly P p + toPoly P q := by
  induction p generalizing q with
  | nil =>
    induction q with
    | nil => simp [Poly.addRaw]
    | cons c q ihq =>
      rw [Poly.addRaw, toPoly_cons, ihq]
      simp only [toPoly_cons, toPoly_nil, fpOps_add, fpOps_zero, Fp.toZMod_add,
        Fp.toZMod_zero, Polynomial.C_add, map_zero]
      ring
  | cons a p ihp =>
    cases q with
    | nil => simp [Poly.addRaw]
    | cons c q =>
      rw [Poly.addRaw, toPoly_cons, ihp]
      simp only [toPoly_cons, fpOps_add, Fp.toZMod_add, Polynomial.C_add]
      ring

theorem toPoly_polyAdd (P : ℕ) [NeZero P] (p q : List (Fin P)) :
    toPoly P (Poly.polyAdd (fpOps P) p q) = toPoly P p + toPoly P q := by
  rw [Poly.polyAdd, toPoly_normalize, toPoly_addRaw]

theorem toZMod_foldl_guarded (P : ℕ) [NeZero P] (g : ℕ → Prop) [DecidablePred g]
    (f : ℕ → Fin P) (l : List ℕ) (a : Fin P) :
    Fp.toZMod (l.foldl (fun acc i => if g i then Fp.add acc (f i) else acc) a)
      = Fp.toZMod a + (l.map (fun i => if g i then Fp.toZMod (f i) else 0)).sum := by
  induction l generalizing a with
  | nil => simp
  | cons i l ih =>
    rw [List.foldl_cons, ih, List.map_cons, List.sum_cons]
    by_cases hi : g i
    · rw [if_pos hi, if_pos hi, Fp.toZMod_add]
      ring
    · rw [if_neg hi, if_neg hi]
      ring

theorem list_sum_map_range {M : Type} [AddCommMonoid M] (f : ℕ → M) (n : ℕ) :
    ((List.range n).map f).sum = ∑ i ∈ Finset.range n, f i := by
  induction n with
  | zero => simp
  | succ n ih => rw [List.range_succ, List.map_append, List.sum_append,
      Finset.sum_range_succ, ih, List.map_singleton, List.sum_singleton]

theorem toZMod_convEntry (P : ℕ) [NeZero P] (p q : List (Fin P)) (k : ℕ) :
    Fp.toZMod (Poly.convEntry (fpOps P) p q k) = (toPoly P p * toPoly P q).coeff k := by
  rw [Polynomial.coeff_mul, Finset.Nat.sum_antidiagonal_eq_sum_range_succ_mk]
  unfold Poly.convEntry
  simp only [fpOps_add, fpOps_mul, fpOps_zero]
  rw [toZMod_foldl_guarded P (fun i => i ≤ k ∧ k - i < q.length)
    (fun i => Fp.mul (p.getD i (Fp.zero P)) (q.getD (k - i) (Fp.zero P)))]
  rw [Fp.toZMod_zero, zero_add, list_sum_map_range]
  rw [← Finset.sum_filter]
  have hcong : ∑ i ∈ (Finset.range p.length).filter (fun i => i ≤ k ∧ k - i < q.length),
        Fp.toZMod (Fp.mul (p.getD i (Fp.zero P)) (q.getD (k - i) (Fp.zero P)))
      = ∑ i ∈ (Finset.range p.length).filter (fun i => i ≤ k ∧ k - i < q.length),
        (toPoly P p).coeff i * (toPoly P q).coeff (k - i) := by
    apply Finset.sum_congr rfl
    intro i hi
    rw [Fp.toZMod_mul, toPoly_coeff, toPoly_coeff]
  rw [hcong]
  apply Finset.sum_subset
  · intro i hi
    rw [Finset.mem_filter, Finset.mem_range] at hi
    rw [Finset.mem_range]
    omega
  · intro i hi hni
    rw [Finset.mem_range] at hi
    by_cases hip : i < p.length
    · have : ¬(k - i < q.length) := by
        intro hq
        exact hni (Finset.mem_filter.mpr ⟨Finset.mem_range.mpr hip, by omega, hq⟩)
      rw [toPoly_coeff_of_le P q (k - i) (by omega), mul_zero]
    · rw [toPoly_coeff_of_le P p i (by omega), zero_mul]

theorem toPoly_convolve (P : ℕ) [NeZero P] (p q : List (Fin P)) :
    toPoly P (Poly.convolve (fpOps P) p q) = toPoly P p * toPoly P q := by
  apply Polynomial.ext
  intro n
  rw [toPoly_coeff]
  unfold Poly.convolve
  by_cases hn : n < p.length + q.length - 1
  · rw [List.getD_eq_getElem?_getD, List.getElem?_map,
      List.getElem?_range hn]
    show Fp.toZMod (Poly.convEntry (fpOps P) p q n) = _
    exact toZMod_convEntry P p q n
  · rw [List.getD_eq_default _ _ (by simpa using hn), Fp.toZMod_zero]
    rw [Polynomial.coeff_mul, Finset.Nat.sum_antidiagonal_eq_sum_range_succ_mk]
    symm
    apply Finset.sum_eq_zero
    intro i hi
    rw [Finset.mem_range] at hi
    by_cases hip : i < p.length
    · rw [toPoly_coeff_of_le P q (n - i) (by omega), mul_zero]
    · rw [toPoly_coeff_of_le P p i (by omega), zero_mul]

theorem toPoly_polyMul (P : ℕ) [NeZero P] (p q : List (Fin P)) :
    toPoly P (Poly.polyMul (fpOps P) p q) = toPoly P p * toPoly P q := by
  cases p with
  | nil =>
    cases q with
    | nil =>
      rw [show Poly.polyMul (fpOps P) ([] : List (Fin P)) [] = [] from rfl]
      simp
    | cons c q =>
      rw [show Poly.polyMul (fpOps P) ([] : List (Fin P)) (c :: q) = [] from rfl]
      simp
  | cons a p =>
    cases q with
    | nil =>
      rw [show Poly.polyMul (fpOps P) (a :: p) ([] : List (Fin P)) = [] from rfl]
      simp
    | cons c q =>
      rw [show Poly.polyMul (fpOps P) (a :: p) (c :: q)
          = Poly.normalize (fpOps P) (Poly.convolve (fpOps P) (a :: p) (c :: q)) from rfl]
      rw [toPoly_normalize, toPoly_convolve]

theorem toPoly_smul (P : ℕ) [NeZero P] (p : List (Fin P)) (s : Fin P) :
    toPoly P (Poly.smul (fpOps P) p s) = toPoly P p * Polynomial.C (Fp.toZMod s) := by
  rw [Poly.smul, toPoly_normalize]
  induction p with
  | nil => simp
  | cons c p ih =>
    rw [List.map_cons, toPoly_cons, toPoly_cons, ih]
    simp only [fpOps, Fp.toZMod_mul, Polynomial.C_mul]
    ring

theorem toPoly_singleRoot (P : ℕ) [NeZero P] (x0 : Fin P) :
    toPoly P (Poly.singleRoot (fpOps P) x0) = Polynomial.X - Polynomial.C (Fp.toZMod x0) := by
  unfold Poly.singleRoot
  simp only [toPoly_cons, toPoly_nil, fpOps, Fp.toZMod_neg, Fp.toZMod_one, mul_zero,
    Polynomial.C_neg, map_one]
  ring

theorem evaluate_cons (P : ℕ) [NeZero P] (x c : Fin P) (l : List (Fin P)) :
    Poly.evaluate (fpOps P) x (c :: l)
      = (fpOps P).add ((fpOps P).mul (Poly.evaluate (fpOps P) x l) x) c := by
  unfold Poly.evaluate
  rw [List.reverse_cons, List.foldl_append, List.foldl_cons, List.foldl_nil]

theorem toZMod_evaluate (P : ℕ) [NeZero P] (l : List (Fin P)) (x : Fin P) :
    Fp.toZMod (Poly.evaluate (fpOps P) x l) = (toPoly P l).eval (Fp.toZMod x) := by
  induction l with
  | nil => simp [Poly.evaluate, fpOps]
  | cons c l ih =>
    rw [evaluate_cons, toPoly_cons]
    simp only [fpOps_add, fpOps_mul, Fp.toZMod_add, Fp.toZMod_mul, ih,
      Polynomial.eval_add, Polynomial.eval_mul, Polynomial.eval_C, Polynomial.eval_X]
    ring

/-! ## Degree and length facts -/

namespace Poly

/-- A coefficient list with no trailing zero (the normalization invariant). -/
def Trimmed {T : Type} (R : RingOps T) (l : List T) : Prop :=
  ∀ x, l.getLast? = some x → x ≠ R.zero

theorem trimmed_nil {T : Type} (R : RingOps T) : Trimmed R [] := by
  intro x hx
  simp at hx

theorem trimmed_normalize {T : Type} [DecidableEq T] (R : RingOps T) (l : List T) :
    Trimmed R (normalize R l) :=
  fun x hx => normalize_getLast R l x hx

end Poly

theorem toPoly_degree_lt (P : ℕ) [NeZero P] (l : List (Fin P)) :
    (toPoly P l).degree < (l.length : ℕ) := by
  rw [Polynomial.degree_lt_iff_coeff_zero]
  intro m hm
  exact_mod_cast toPoly_coeff_of_le P l m (by exact_mod_cast hm)

theorem toPoly_coeff_last_ne_zero (P : ℕ) [NeZero P] (l : List (Fin P))
    (hne : l ≠ []) (ht : Poly.Trimmed (fpOps P) l) :
    (toPoly P l).coeff (l.length - 1) ≠ 0 := by
  cases hx : l.getLast? with
  | none =>
    exact absurd (List.getLast?_eq_none_iff.mp hx) hne
  | some x =>
    have hxz : x ≠ Fp.zero P := by simpa using ht x hx
    rw [toPoly_coeff, List.getD_eq_getElem?_getD, ← List.getLast?_eq_getElem?, hx]
    intro h0
    exact hxz (Fp.toZMod_injective (by simpa using h0))

/-- A trimmed list whose polynomial has degree below `n` has length at most
`n`. -/
theorem trimmed_length_le (P : ℕ) [NeZero P] (l : List (Fin P))
    (ht : Poly.Trimmed (fpOps P) l) (n : ℕ) (hd : (toPoly P l).degree < (n : ℕ)) :
    l.length ≤ n := by
  cases hl : l with
  | nil => simp
  | cons c r =>
    subst hl
    have hne : c :: r ≠ [] := by simp
    have hcoeff := toPoly_coeff_last_ne_zero P (c :: r) hne ht
    have hnd : (c :: r).length - 1 ≤ (toPoly P (c :: r)).natDegree :=
      Polynomial.le_natDegree_of_ne_zero hcoeff
    have hpne : toPoly P (c :: r) ≠ 0 := by
      intro h0
      rw [h0] at hcoeff
      exact hcoeff (Polynomial.coeff_zero _)
    rw [Polynomial.degree_eq_natDegree hpne, Nat.cast_lt] at hd
    have : 0 < (c :: r).length := List.length_pos.mpr hne
    omega

/-! ## Closed form of the embedded Lagrange interpolation -/

/-- The x-coordinate of point `m` (default pair beyond the end). -/
def nodeX (P : ℕ) [NeZero P] (pts : List (Fin P × Fin P)) (m : ℕ) : Fin P :=
  (pts.getD m (Fp.zero P, Fp.zero P)).1

/-- The y-coordinate of point `m`. -/
def nodeY (P : ℕ) [NeZero P] (pts : List (Fin P × Fin P)) (m : ℕ) : Fin P :=
  (pts.getD m (Fp.zero P, Fp.zero P)).2

/-- The enumerated point list with index `i` removed: exactly the factors the
inner loop of the interpolation multiplies together. -/
def filteredEnum (P : ℕ) (pts : List (Fin P × Fin P)) (i : ℕ) :
    List (ℕ × (Fin P × Fin P)) :=
  (pts.enumFrom 0).filter (fun e => decide (¬ i = e.1))

/-- The numerator polynomial of basis `i`. -/
noncomputable def nodal (P : ℕ) [NeZero P] (pts : List (Fin P × Fin P)) (i : ℕ) :
    Polynomial (ZMod P) :=
  ((filteredEnum P pts i).map
    (fun e => Polynomial.X - Polynomial.C (Fp.toZMod e.2.1))).prod

/-- The denominator of basis `i`, in `ZMod P`. -/
def denomZ (P : ℕ) [NeZero P] (pts : List (Fin P × Fin P)) (i : ℕ) : ZMod P :=
  ((filteredEnum P pts i).map
    (fun e => Fp.toZMod (nodeX P pts i) - Fp.toZMod e.2.1)).prod

/-- The scalar weight of basis `i`: `y_i / denom_i`. -/
noncomputable def weightZ (P : ℕ) [NeZero P] (pts : List (Fin P × Fin P)) (i : ℕ) :
    ZMod P :=
  Fp.toZMod (nodeY P pts i) * (denomZ P pts i)⁻¹

theorem basisAux_spec (P : ℕ) [NeZero P] (xi : Fin P) (i : ℕ) :
    ∀ (rest : List (Fin P × Fin P)) (j : ℕ) (pl : List (Fin P)) (dn : Fin P),
      toPoly P (basisAux P xi i rest j (pl, dn)).1
        = toPoly P pl * (((rest.enumFrom j).filter (fun e => decide (¬ i = e.1))).map
            (fun e => Polynomial.X - Polynomial.C (Fp.toZMod e.2.1))).prod
      ∧ Fp.toZMod (basisAux P xi i rest j (pl, dn)).2
        = Fp.toZMod dn * (((rest.enumFrom j).filter (fun e => decide (¬ i = e.1))).map
            (fun e => Fp.toZMod xi - Fp.toZMod e.2.1)).prod := by
  intro rest
  induction rest with
  | nil =>
    intro j pl dn
    simp [basisAux]
  | cons hd rest ih =>
    intro j pl dn
    obtain ⟨xj, yj⟩ := hd
    by_cases hij : i = j
    · rw [show basisAux P xi i ((xj, yj) :: rest) j (pl, dn)
          = basisAux P xi i rest (j + 1) (pl, dn) by rw [basisAux, if_pos hij]]
      rw [List.enumFrom_cons, List.filter_cons_of_neg (by simp [hij])]
      exact ih (j + 1) pl dn
    · rw [show basisAux P xi i ((xj, yj) :: rest) j (pl, dn)
          = basisAux P xi i rest (j + 1)
              (Poly.polyMul (fpOps P) pl (Poly.singleRoot (fpOps P) xj),
               (fpOps P).mul dn ((fpOps P).sub xi xj)) by rw [basisAux, if_neg hij]]
      obtain ⟨ih1, ih2⟩ := ih (j + 1)
        (Poly.polyMul (fpOps P) pl (Poly.singleRoot (fpOps P) xj))
        ((fpOps P).mul dn ((fpOps P).sub xi xj))
      rw [List.enumFrom_cons, List.filter_cons_of_pos (by simp [hij])]
      constructor
      · rw [ih1, toPoly_polyMul, toPoly_singleRoot, List.map_cons, List.prod_cons]
        ring
      · rw [ih2, List.map_cons, List.prod_cons]
        simp only [fpOps_mul, fpOps_sub, Fp.toZMod_mul, Fp.toZMod_sub]
        ring

theorem toPoly_one_list (P : ℕ) [NeZero P] : toPoly P [Fp.one P] = 1 := by
  simp

theorem basisAux_full_fst (P : ℕ) [NeZero P] (pts : List (Fin P × Fin P)) (i : ℕ)
    (xi : Fin P) :
    toPoly P (basisAux P xi i pts 0 ([(fpOps P).one], (fpOps P).one)).1
      = nodal P pts i := by
  obtain ⟨h1, _⟩ := basisAux_spec P xi i pts 0 [(fpOps P).one] (fpOps P).one
  rw [h1, fpOps_one, toPoly_one_list, one_mul]
  rfl

theorem basisAux_full_snd (P : ℕ) [NeZero P] (pts : List (Fin P × Fin P)) (i : ℕ) :
    Fp.toZMod (basisAux P (nodeX P pts i) i pts 0 ([(fpOps P).one], (fpOps P).one)).2
      = denomZ P pts i := by
  obtain ⟨_, h2⟩ := basisAux_spec P (nodeX P pts i) i pts 0 [(fpOps P).one] (fpOps P).one
  rw [h2, fpOps_one, Fp.toZMod_one, one_mul]
  rfl

theorem Fp.toZMod_eq_zero_iff {P : ℕ} [NeZero P] (a : Fin P) :
    Fp.toZMod a = 0 ↔ a = Fp.zero P := by
  constructor
  · intro h
    exact Fp.toZMod_injective (by rw [h, Fp.toZMod_zero])
  · intro h
    rw [h, Fp.toZMod_zero]

theorem Fp.div_eq_none_iff {P : ℕ} [NeZero P] (a b : Fin P) :
    Fp.div a b = none ↔ b = Fp.zero P := by
  unfold Fp.div Fp.inverse
  by_cases hb : b.val = 0
  · simp only [hb, if_pos rfl, Option.map_none]
    have : b = Fp.zero P := Fin.ext (by simpa [Fp.zero] using hb)
    simp [this]
  · simp only [if_neg hb, Option.map_some]
    constructor
    · intro h
      cases h
    · intro h
      exact absurd (by simpa [Fp.zero] using congrArg Fin.val h) hb

theorem lagrangeGo_spec (P : ℕ) [NeZero P] (hP : P.Prime)
    (pts : List (Fin P × Fin P)) :
    ∀ (rest : List (Fin P × Fin P)) (i : ℕ) (acc : List (Fin P)),
      i + rest.length = pts.length →
      (∀ k, rest.getD k (Fp.zero P, Fp.zero P) = pts.getD (i + k) (Fp.zero P, Fp.zero P)) →
      (∀ m, i ≤ m → m < pts.length → denomZ P pts m ≠ 0) →
      Poly.Trimmed (fpOps P) acc →
      ∃ L, lagrangeGo P pts rest i acc = some L ∧ Poly.Trimmed (fpOps P) L ∧
        toPoly P L = toPoly P acc
          + ((List.range' i (pts.length - i)).map
              (fun m => Polynomial.C (weightZ P pts m) * nodal P pts m)).sum := by
  intro rest
  induction rest with
  | nil =>
    intro i acc hlen _ _ hacc
    refine ⟨acc, rfl, hacc, ?_⟩
    simp only [List.length_nil] at hlen
    have : pts.length - i = 0 := by omega
    rw [this]
    simp
  | cons hd rest ih =>
    intro i acc hlen hcorr hdn hacc
    obtain ⟨xi, yi⟩ := hd
    have hi : i < pts.length := by
      have := hlen
      simp only [List.length_cons] at this
      omega
    have hhead : (xi, yi) = pts.getD i (Fp.zero P, Fp.zero P) := by
      have h0 := hcorr 0
      simpa using h0
    have hxi : xi = nodeX P pts i := by
      rw [nodeX, ← hhead]
    have hyi : yi = nodeY P pts i := by
      rw [nodeY, ← hhead]
    have hdnz : Fp.toZMod (basisAux P xi i pts 0 ([(fpOps P).one], (fpOps P).one)).2
        = denomZ P pts i := by
      rw [hxi]
      exact basisAux_full_snd P pts i
    have hdni : denomZ P pts i ≠ 0 := hdn i le_rfl hi
    have hdnFin : (basisAux P xi i pts 0 ([(fpOps P).one], (fpOps P).one)).2 ≠ Fp.zero P := by
      intro h0
      rw [← Fp.toZMod_eq_zero_iff, hdnz] at h0
      exact hdni h0
    obtain ⟨c, hdiv, hc⟩ := Fp.toZMod_div hP yi
      (basisAux P xi i pts 0 ([(fpOps P).one], (fpOps P).one)).2 hdnFin
    have hcw : Fp.toZMod c = weightZ P pts i := by
      rw [hc, hdnz, hyi, weightZ]
    set acc2 := Poly.polyAdd (fpOps P) acc
      (Poly.smul (fpOps P) (basisAux P xi i pts 0 ([(fpOps P).one], (fpOps P).one)).1 c)
      with hacc2
    obtain ⟨L, hL, hLt, hLpoly⟩ := ih (i + 1) acc2
      (by simp only [List.length_cons] at hlen; omega)
      (fun k => by have := hcorr (k + 1); rw [show i + (k + 1) = i + 1 + k by omega] at this; simpa using this)
      (fun m hm hmn => hdn m (by omega) hmn)
      (Poly.trimmed_normalize _ _)
    refine ⟨L, ?_, hLt, ?_⟩
    · rw [lagrangeGo, hdiv]
      exact hL
    · rw [hLpoly, hacc2, toPoly_polyAdd, toPoly_smul, basisAux_full_fst, hcw]
      have hcount : pts.length - i = (pts.length - (i + 1)) + 1 := by omega
      rw [hcount, List.range'_succ, List.map_cons, List.sum_cons]
      ring

/-! ## Properties of the interpolation closed form -/

theorem getD_mem_enumFrom {A : Type} (l : List A) (d : A) :
    ∀ (j k : ℕ), k < l.length → (j + k, l.getD k d) ∈ l.enumFrom j := by
  induction l with
  | nil =>
    intro j k hk
    simp at hk
  | cons a l ih =>
    intro j k hk
    cases k with
    | zero => simp [List.enumFrom_cons]
    | succ k =>
      rw [List.enumFrom_cons]
      refine List.mem_cons_of_mem _ ?_
      have := ih (j + 1) k (by simpa using Nat.lt_of_succ_lt_succ hk)
      rw [show j + (k + 1) = j + 1 + k by omega]
      simpa using this

theorem mem_enumFrom_getD {A : Type} (l : List A) (d : A) :
    ∀ (j : ℕ) (e : ℕ × A), e ∈ l.enumFrom j →
      ∃ k, k < l.length ∧ e.1 = j + k ∧ e.2 = l.getD k d := by
  induction l with
  | nil =>
    intro j e he
    simp at he
  | cons a l ih =>
    intro j e he
    rw [List.enumFrom_cons] at he
    rcases List.mem_cons.mp he with h0 | hrest
    · exact ⟨0, by simp, by simp [h0], by simp [h0]⟩
    · obtain ⟨k, hk, h1, h2⟩ := ih (j + 1) e hrest
      exact ⟨k + 1, by simpa using Nat.succ_lt_succ hk,
        by omega, by simpa using h2⟩

/-- With pairwise distinct x-coordinates over a prime field, every inner-loop
denominator is nonzero. -/
theorem denomZ_ne_zero (P : ℕ) [NeZero P] (hP : P.Prime)
    (pts : List (Fin P × Fin P))
    (hinj : ∀ a b, a < pts.length → b < pts.length →
      nodeX P pts a = nodeX P pts b → a = b)
    (m : ℕ) (hm : m < pts.length) : denomZ P pts m ≠ 0 := by
  haveI : Fact P.Prime := ⟨hP⟩
  apply List.prod_ne_zero
  intro h0
  rw [List.mem_map] at h0
  obtain ⟨e, hemem, heval⟩ := h0
  rw [filteredEnum, List.mem_filter] at hemem
  obtain ⟨henum, hpred⟩ := hemem
  obtain ⟨k, hk, hk1, hk2⟩ := mem_enumFrom_getD pts (Fp.zero P, Fp.zero P) 0 e henum
  have hkm : k ≠ m := by
    intro hkm
    subst hkm
    rw [hk1] at hpred
    simp at hpred
  have hex : Fp.toZMod (nodeX P pts m) = Fp.toZMod (nodeX P pts k) := by
    have h1 := sub_eq_zero.mp heval
    rw [hk2] at h1
    exact h1
  exact hkm (hinj m k hm hk (Fp.toZMod_injective hex)).symm

/-- The closed form of the interpolation result. -/
noncomputable def interpSum (P : ℕ) [NeZero P] (pts : List (Fin P × Fin P)) :
    Polynomial (ZMod P) :=
  ((List.range pts.length).map
    (fun m => Polynomial.C (weightZ P pts m) * nodal P pts m)).sum

/-- Polynomial evaluation commutes with list sums. -/
theorem poly_eval_list_sum {R : Type} [CommSemiring R] (l : List (Polynomial R)) (x : R) :
    Polynomial.eval x l.sum = (l.map (Polynomial.eval x)).sum := by
  induction l with
  | nil => simp
  | cons p l ih => simp [ih]

/-- Evaluating basis numerator `m` at node `k ≠ m` gives zero. -/
theorem nodal_eval_ne (P : ℕ) [NeZero P] (pts : List (Fin P × Fin P)) (m k : ℕ)
    (hk : k < pts.length) (hkm : k ≠ m) :
    (nodal P pts m).eval (Fp.toZMod (nodeX P pts k)) = 0 := by
  rw [nodal, Polynomial.eval_list_prod, List.map_map]
  apply List.prod_eq_zero
  rw [List.mem_map]
  refine ⟨(k, pts.getD k (Fp.zero P, Fp.zero P)), ?_, ?_⟩
  · rw [filteredEnum, List.mem_filter]
    constructor
    · have := getD_mem_enumFrom pts (Fp.zero P, Fp.zero P) 0 k hk
      simpa using this
    · simp [Ne.symm hkm]
  · simp [nodeX]

/-- Evaluating basis numerator `m` at its own node gives the denominator. -/
theorem nodal_eval_self (P : ℕ) [NeZero P] (pts : List (Fin P × Fin P)) (m : ℕ) :
    (nodal P pts m).eval (Fp.toZMod (nodeX P pts m)) = denomZ P pts m := by
  rw [nodal, Polynomial.eval_list_prod, denomZ, List.map_map]
  congr 1
  apply List.map_congr_left
  intro e _
  simp

/-- The closed form interpolates every node exactly. -/
theorem interpSum_eval (P : ℕ) [NeZero P] (hP : P.Prime) (pts : List (Fin P × Fin P))
    (hinj : ∀ a b, a < pts.length → b < pts.length →
      nodeX P pts a = nodeX P pts b → a = b)
    (k : ℕ) (hk : k < pts.length) :
    (interpSum P pts).eval (Fp.toZMod (nodeX P pts k)) = Fp.toZMod (nodeY P pts k) := by
  haveI : Fact P.Prime := ⟨hP⟩
  rw [interpSum, poly_eval_list_sum, List.map_map]
  have hterm : ∀ m, (Polynomial.eval (Fp.toZMod (nodeX P pts k)) ∘
      fun m => Polynomial.C (weightZ P pts m) * nodal P pts m) m
      = weightZ P pts m * (nodal P pts m).eval (Fp.toZMod (nodeX P pts k)) := by
    intro m
    simp
  rw [List.map_congr_left (fun m _ => hterm m), list_sum_map_range]
  rw [Finset.sum_eq_single_of_mem k (Finset.mem_range.mpr hk)]
  · rw [nodal_eval_self, weightZ, mul_assoc,
      inv_mul_cancel₀ (denomZ_ne_zero P hP pts hinj k hk), mul_one]
  · intro m _ hmk
    rw [nodal_eval_ne P pts m k hk (fun h => hmk h.symm), mul_zero]

theorem degree_linear_prod_le (P : ℕ) [NeZero P] {B : Type} (g : B → ZMod P) :
    ∀ l : List B, ((l.map (fun e => Polynomial.X - Polynomial.C (g e))).prod).degree
      ≤ (l.length : WithBot ℕ) := by
  intro l
  induction l with
  | nil =>
    rw [List.map_nil, List.prod_nil]
    exact le_trans Polynomial.degree_one_le (by exact_mod_cast Nat.zero_le 0)
  | cons b l ih =>
    rw [List.map_cons, List.prod_cons]
    refine le_trans (Polynomial.degree_mul_le _ _) ?_
    have h1 : (Polynomial.X - Polynomial.C (g b) : Polynomial (ZMod P)).degree
        ≤ (1 : WithBot ℕ) := by
      refine le_trans (Polynomial.degree_sub_le _ _) (max_le Polynomial.degree_X_le ?_)
      exact le_trans Polynomial.degree_C_le (by exact_mod_cast Nat.zero_le 1)
    calc (Polynomial.X - Polynomial.C (g b)).degree
          + ((l.map (fun e => Polynomial.X - Polynomial.C (g e))).prod).degree
        ≤ (1 : WithBot ℕ) + (l.length : ℕ) := add_le_add h1 ih
      _ = (((1 : ℕ) : WithBot ℕ)) + ((l.length : ℕ) : WithBot ℕ) := by rw [Nat.cast_one]
      _ = (((1 + l.length : ℕ) : WithBot ℕ)) := by rw [Nat.cast_add]
      _ = (((b :: l).length : ℕ) : WithBot ℕ) := by rw [List.length_cons, Nat.add_comm]

theorem filteredEnum_length_lt (P : ℕ) [NeZero P] (pts : List (Fin P × Fin P))
    (m : ℕ) (hm : m < pts.length) :
    (filteredEnum P pts m).length < pts.length := by
  have hmem : (0 + m, pts.getD m (Fp.zero P, Fp.zero P)) ∈ pts.enumFrom 0 :=
    getD_mem_enumFrom pts (Fp.zero P, Fp.zero P) 0 m hm
  have hlt : (filteredEnum P pts m).length < (pts.enumFrom 0).length := by
    apply List.length_filter_lt_length_iff_exists.mpr
    exact ⟨(0 + m, pts.getD m (Fp.zero P, Fp.zero P)), hmem, by simp⟩
  rwa [List.enumFrom_length] at hlt

theorem nodal_degree_lt (P : ℕ) [NeZero P] (pts : List (Fin P × Fin P))
    (m : ℕ) (hm : m < pts.length) :
    (nodal P pts m).degree < (pts.length : WithBot ℕ) := by
  refine lt_of_le_of_lt (degree_linear_prod_le P _ (filteredEnum P pts m)) ?_
  exact_mod_cast filteredEnum_length_lt P pts m hm

theorem degree_list_sum_lt {R : Type} [CommSemiring R]
    (l : List (Polynomial R)) (D : WithBot ℕ) (hD : ⊥ < D)
    (h : ∀ p ∈ l, p.degree < D) : (l.sum).degree < D := by
  induction l with
  | nil => simpa using hD
  | cons p l ih =>
    rw [List.sum_cons]
    refine lt_of_le_of_lt (Polynomial.degree_add_le _ _) ?_
    rw [max_lt_iff]
    exact ⟨h p (List.mem_cons_self p l), ih (fun q hq => h q (List.mem_cons_of_mem _ hq))⟩

theorem interpSum_degree_lt (P : ℕ) [NeZero P] (pts : List (Fin P × Fin P)) :
    (interpSum P pts).degree < (pts.length : WithBot ℕ) ∨ pts.length = 0 := by
  by_cases hn : pts.length = 0
  · right
    exact hn
  · left
    apply degree_list_sum_lt
    · exact lt_of_lt_of_le (WithBot.bot_lt_coe 0) (by exact_mod_cast Nat.zero_le _)
    · intro p hp
      rw [List.mem_map] at hp
      obtain ⟨m, hm, hpm⟩ := hp
      rw [List.mem_range] at hm
      subst hpm
      refine lt_of_le_of_lt (Polynomial.degree_mul_le _ _) ?_
      have h1 : (Polynomial.C (weightZ P pts m)).degree ≤ 0 := Polynomial.degree_C_le
      have h2 := nodal_degree_lt P pts m hm
      calc (Polynomial.C (weightZ P pts m)).degree + (nodal P pts m).degree
          ≤ 0 + (nodal P pts m).degree := add_le_add h1 le_rfl
        _ = (nodal P pts m).degree := zero_add _
        _ < (pts.length : WithBot ℕ) := h2

/-- Full closed-form specification of the embedded interpolation on a point
list with pairwise distinct x-coordinates over a prime field. -/
theorem lagrangeInterpolation_spec (P : ℕ) [NeZero P] (hP : P.Prime)
    (pts : List (Fin P × Fin P))
    (hinj : ∀ a b, a < pts.length → b < pts.length →
      nodeX P pts a = nodeX P pts b → a = b) :
    ∃ L, lagrangeInterpolation P pts = some L ∧ Poly.Trimmed (fpOps P) L ∧
      toPoly P L = interpSum P pts := by
  obtain ⟨L, hL, hLt, hLpoly⟩ := lagrangeGo_spec P hP pts pts 0 []
    (by simp)
    (fun k => by simp)
    (fun m hm hmlt => denomZ_ne_zero P hP pts hinj m hmlt)
    (Poly.trimmed_nil _)
  refine ⟨L, hL, hLt, ?_⟩
  rw [hLpoly, toPoly_nil, zero_add, interpSum, Nat.sub_zero, List.range_eq_range']

/-! ## Interpolation failure on coinciding x-coordinates -/

theorem denomZ_eq_zero_of_dup (P : ℕ) [NeZero P] (pts : List (Fin P × Fin P))
    (a b : ℕ) (hb : b < pts.length) (hab : a ≠ b)
    (hx : nodeX P pts a = nodeX P pts b) : denomZ P pts a = 0 := by
  apply List.prod_eq_zero
  rw [List.mem_map]
  refine ⟨(b, pts.getD b (Fp.zero P, Fp.zero P)), ?_, ?_⟩
  · rw [filteredEnum, List.mem_filter]
    refine ⟨by simpa using getD_mem_enumFrom pts (Fp.zero P, Fp.zero P) 0 b hb, by simp [hab]⟩
  · show Fp.toZMod (nodeX P pts a) - Fp.toZMod (pts.getD b (Fp.zero P, Fp.zero P)).1 = 0
    rw [show (pts.getD b (Fp.zero P, Fp.zero P)).1 = nodeX P pts b from rfl, hx, sub_self]

theorem lagrangeGo_none (P : ℕ) [NeZero P] (pts : List (Fin P × Fin P)) :
    ∀ (rest : List (Fin P × Fin P)) (i : ℕ) (acc : List (Fin P)),
      i + rest.length = pts.length →
      (∀ k, rest.getD k (Fp.zero P, Fp.zero P) = pts.getD (i + k) (Fp.zero P, Fp.zero P)) →
      (∃ m, i ≤ m ∧ m < pts.length ∧ denomZ P pts m = 0) →
      lagrangeGo P pts rest i acc = none := by
  intro rest
  induction rest with
  | nil =>
    intro i acc hlen _ hm
    obtain ⟨m, him, hmlt, _⟩ := hm
    simp only [List.length_nil] at hlen
    omega
  | cons hd rest ih =>
    intro i acc hlen hcorr hm
    obtain ⟨xi, yi⟩ := hd
    have hhead : (xi, yi) = pts.getD i (Fp.zero P, Fp.zero P) := by
      simpa using hcorr 0
    have hxi : xi = nodeX P pts i := by rw [nodeX, ← hhead]
    have hdnz : Fp.toZMod (basisAux P xi i pts 0 ([(fpOps P).one], (fpOps P).one)).2
        = denomZ P pts i := by
      rw [hxi]
      exact basisAux_full_snd P pts i
    by_cases hz : denomZ P pts i = 0
    · have hdnFin : (basisAux P xi i pts 0 ([(fpOps P).one], (fpOps P).one)).2 = Fp.zero P := by
        rw [← Fp.toZMod_eq_zero_iff, hdnz]
        exact hz
      rw [lagrangeGo, (Fp.div_eq_none_iff yi _).mpr hdnFin]
    · have hdnFin : (basisAux P xi i pts 0 ([(fpOps P).one], (fpOps P).one)).2 ≠ Fp.zero P := by
        intro h0
        rw [← Fp.toZMod_eq_zero_iff, hdnz] at h0
        exact hz h0
      have hne : Fp.div yi (basisAux P xi i pts 0 ([(fpOps P).one], (fpOps P).one)).2 ≠ none :=
        fun h => hdnFin ((Fp.div_eq_none_iff _ _).mp h)
      obtain ⟨c, hc⟩ := Option.ne_none_iff_exists'.mp hne
      rw [lagrangeGo, hc]
      apply ih
      · simp only [List.length_cons] at hlen
        omega
      · intro k
        have := hcorr (k + 1)
        rw [show i + (k + 1) = i + 1 + k by omega] at this
        simpa using this
      · obtain ⟨m, him, hmlt, hmz⟩ := hm
        refine ⟨m, ?_, hmlt, hmz⟩
        rcases Nat.eq_or_lt_of_le him with heq | hlt
        · exact absurd (heq ▸ hmz) hz
        · omega

/-- The embedded interpolation fails (division by the zero element) whenever
two x-coordinates at distinct indices coincide. -/
theorem lagrangeInterpolation_none_of_dup (P : ℕ) [NeZero P]
    (pts : List (Fin P × Fin P)) (a b : ℕ) (ha : a < pts.length) (hb : b < pts.length)
    (hab : a ≠ b) (hx : nodeX P pts a = nodeX P pts b) :
    lagrangeInterpolation P pts = none := by
  apply lagrangeGo_none P pts pts 0 []
  · simp
  · intro k
    simp
  · exact ⟨a, Nat.zero_le a, ha, denomZ_eq_zero_of_dup P pts a b hb hab hx⟩

/-! ## Shamir loop behaviour -/

/-- For threshold at least 1 (with enough draws), the construction loop
accepts the very first draw: `from_coeffs` does not strip trailing zeros, so
`degree()` is always `len - 1 = t - 1` and the retry never happens. -/
theorem buildPoly_eq (P : ℕ) [NeZero P] (secret : Fin P) (t : ℕ) (draws : List ℕ)
    (ht : 1 ≤ t) (hd : t - 1 ≤ draws.length) :
    buildPoly P secret t draws = some (secret :: (draws.take (t - 1)).map (Fp.new P)) := by
  rw [buildPoly, buildGo, (by rw [checkedSubUsize, if_pos ht] :
    checkedSubUsize t 1 = some (t - 1))]
  simp only [hd, if_pos]
  have hdeg : Poly.degree (Poly.fromCoeffs (secret :: (draws.take (t - 1)).map (Fp.new P)))
      = some (t - 1) := by
    rw [Poly.fromCoeffs,
      show Poly.degree (secret :: (draws.take (t - 1)).map (Fp.new P))
        = some ((secret :: (draws.take (t - 1)).map (Fp.new P)).length - 1) from rfl]
    simp [List.length_take, Nat.min_eq_left hd]
  rw [hdeg]
  simp

theorem splitSecret_eq (P : ℕ) [NeZero P] (secret : Fin P) (t n : ℕ) (draws : List ℕ)
    (ht : 1 ≤ t) (htn : t ≤ n) (hd : t - 1 ≤ draws.length) :
    splitSecret P secret t n draws
      = some ((List.range n).map fun k =>
          (Fp.new P (k + 1),
           Poly.evaluate (fpOps P) (Fp.new P (k + 1))
             (secret :: (draws.take (t - 1)).map (Fp.new P)))) := by
  rw [splitSecret, if_neg (by omega), buildPoly_eq P secret t draws ht hd]
  rfl

/-! ## List access helpers -/

theorem getD_map_range {A : Type} (n : ℕ) (g : ℕ → A) (d : A) (i : ℕ) (h : i < n) :
    ((List.range n).map g).getD i d = g i := by
  rw [List.getD_eq_getElem?_getD, List.getElem?_map, List.getElem?_range h]
  rfl

theorem getD_map_of_lt {A B : Type} (l : List A) (g : A → B) (j : ℕ)
    (h : j < l.length) (d : B) (d0 : A) :
    (l.map g).getD j d = g (l.getD j d0) := by
  rw [List.getD_eq_getElem?_getD, List.getElem?_map, List.getElem?_eq_getElem h,
    List.getD_eq_getElem?_getD, List.getElem?_eq_getElem h]
  rfl

theorem getD_eq_get {A : Type} (l : List A) (d : A) (i : ℕ) (h : i < l.length) :
    l.getD i d = l.get ⟨i, h⟩ := by
  rw [List.getD_eq_getElem?_getD, List.getElem?_eq_getElem h]
  rfl

theorem nodup_getD_inj {A : Type} [DecidableEq A] (l : List A) (hnd : l.Nodup) (d : A)
    (a b : ℕ) (ha : a < l.length) (hb : b < l.length)
    (h : l.getD a d = l.getD b d) : a = b := by
  rw [getD_eq_get l d a ha, getD_eq_get l d b hb] at h
  have := (List.Nodup.get_inj_iff hnd).mp h
  exact congrArg Fin.val this

theorem Fp.new_inj_of_le (P : ℕ) [NeZero P] (a b : ℕ) (ha : a < P) (hb : b < P)
    (h : Fp.new P a = Fp.new P b) : a = b := by
  have := congrArg Fin.val h
  simpa [Fp.new, Nat.mod_eq_of_lt ha, Nat.mod_eq_of_lt hb] using this

/-- C1 (amended): over a prime modulus `P ≤ 2^63` (the domain on which the
source's `u64` field additions cannot overflow, so the total embedding
agrees with the checked source arithmetic — `Fp.addU64_eq_add`,
`Fp.subU64_eq_sub`), for threshold `1 ≤ t ≤ n` with `n < P` (so the
abscissas `1, …, n` stay distinct and nonzero mod `P`), enough randomness
for one draw, and a sharing polynomial that is not identically zero mod `P`
(automatic for a nonzero secret), `reconstruct_secret` applied to the
shares selected by any `t` pairwise distinct indices returns exactly the
original secret. -/
theorem claim_c1 (P t n : ℕ) [NeZero P] (hP : P.Prime) (_hbound : P ≤ 2 ^ 63)
    (secret : Fin P)
    (draws : List ℕ) (ht : 1 ≤ t) (htn : t ≤ n) (hnP : n < P)
    (hdr : t - 1 ≤ draws.length)
    (hnz : ¬(secret = Fp.zero P ∧ ∀ d ∈ draws.take (t - 1), d % P = 0))
    (shares : List (Fin P × Fin P))
    (hsplit : splitSecret P secret t n draws = some shares)
    (sel : List ℕ) (hslen : sel.length = t) (hnd : sel.Nodup)
    (hsel : ∀ i ∈ sel, i < n) :
    reconstructSecret P (sel.map (fun i => shares.getD i (Fp.zero P, Fp.zero P)))
      = some secret := by
  haveI : Fact P.Prime := ⟨hP⟩
  set f : List (Fin P) := secret :: (draws.take (t - 1)).map (Fp.new P) with hf
  have hshares : shares = (List.range n).map (fun k =>
      (Fp.new P (k + 1), Poly.evaluate (fpOps P) (Fp.new P (k + 1)) f)) := by
    rw [splitSecret_eq P secret t n draws ht htn hdr] at hsplit
    exact (Option.some.inj hsplit).symm
  set pts : List (Fin P × Fin P) :=
    sel.map (fun i => shares.getD i (Fp.zero P, Fp.zero P)) with hpts
  have hptslen : pts.length = t := by
    rw [hpts, List.length_map, hslen]
  have hselD : ∀ j, j < t → sel.getD j 0 < n := by
    intro j hj
    apply hsel
    rw [getD_eq_get sel 0 j (by omega)]
    exact List.get_mem sel _ _
  have hnodeX : ∀ j, j < t → nodeX P pts j = Fp.new P (sel.getD j 0 + 1) := by
    intro j hj
    rw [nodeX, hpts, getD_map_of_lt sel _ j (by omega) _ 0, hshares,
      getD_map_range n _ _ _ (hselD j hj)]
  have hnodeY : ∀ j, j < t → nodeY P pts j
      = Poly.evaluate (fpOps P) (Fp.new P (sel.getD j 0 + 1)) f := by
    intro j hj
    rw [nodeY, hpts, getD_map_of_lt sel _ j (by omega) _ 0, hshares,
      getD_map_range n _ _ _ (hselD j hj)]
  have hinj : ∀ a b, a < pts.length → b < pts.length →
      nodeX P pts a = nodeX P pts b → a = b := by
    intro a b ha hb hx
    rw [hptslen] at ha hb
    rw [hnodeX a ha, hnodeX b hb] at hx
    have h1 : sel.getD a 0 + 1 = sel.getD b 0 + 1 :=
      Fp.new_inj_of_le P _ _ (by have := hselD a ha; omega)
        (by have := hselD b hb; omega) hx
    exact nodup_getD_inj sel hnd 0 a b (by omega) (by omega) (by omega)
  obtain ⟨L, hL, hLt, hLpoly⟩ := lagrangeInterpolation_spec P hP pts hinj
  have hflen : f.length = t := by
    rw [hf, List.length_cons, List.length_map, List.length_take, Nat.min_eq_left hdr]
    omega
  have hFdeg : (toPoly P f).degree < (t : WithBot ℕ) := by
    have := toPoly_degree_lt P f
    rwa [hflen] at this
  have hLdeg : (toPoly P L).degree < (t : WithBot ℕ) := by
    rw [hLpoly]
    rcases interpSum_degree_lt P pts with h | h
    · rwa [hptslen] at h
    · rw [hptslen] at h
      omega
  have hvinj : Set.InjOn (fun m => Fp.toZMod (nodeX P pts m))
      ((Finset.range t : Finset ℕ) : Set ℕ) := by
    intro a ha b hb hv
    rw [Finset.coe_range, Set.mem_Iio] at ha hb
    exact hinj a b (by omega) (by omega) (Fp.toZMod_injective hv)
  have hevals : ∀ m ∈ Finset.range t,
      (toPoly P L).eval (Fp.toZMod (nodeX P pts m))
        = (toPoly P f).eval (Fp.toZMod (nodeX P pts m)) := by
    intro m hm
    rw [Finset.mem_range] at hm
    rw [hLpoly, interpSum_eval P hP pts hinj m (by omega), hnodeY m hm,
      toZMod_evaluate, hnodeX m hm]
  have hLF : toPoly P L = toPoly P f := by
    apply Polynomial.eq_of_degrees_lt_of_eval_index_eq (Finset.range t) hvinj
    · rwa [Finset.card_range]
    · rwa [Finset.card_range]
    · exact hevals
  have hF0 : (toPoly P f).coeff 0 = Fp.toZMod secret := by
    rw [toPoly_coeff]
    rfl
  have hFne : toPoly P f ≠ 0 := by
    rcases not_and_or.mp hnz with hs | hd
    · intro h0
      apply hs
      rw [← Fp.toZMod_eq_zero_iff, ← hF0, h0, Polynomial.coeff_zero]
    · push_neg at hd
      obtain ⟨d, hdmem, hdz⟩ := hd
      obtain ⟨i, hi, hget⟩ := List.getElem_of_mem hdmem
      intro h0
      have hcoeff := toPoly_coeff P f (i + 1)
      rw [h0, Polynomial.coeff_zero] at hcoeff
      have hgd : f.getD (i + 1) (Fp.zero P) = Fp.new P d := by
        rw [hf]
        show ((draws.take (t - 1)).map (Fp.new P)).getD i (Fp.zero P) = Fp.new P d
        rw [getD_map_of_lt _ _ i hi _ 0, getD_eq_get _ 0 i hi]
        simp [hget]
      rw [hgd, Fp.toZMod_new] at hcoeff
      rw [eq_comm, ZMod.natCast_zmod_eq_zero_iff_dvd] at hcoeff
      obtain ⟨c, rfl⟩ := hcoeff
      exact hdz (Nat.mul_mod_right P c)
  rw [reconstructSecret, hL]
  cases hLl : L with
  | nil =>
    exfalso
    apply hFne
    rw [← hLF, hLl, toPoly_nil]
  | cons c restL =>
    have hc : c = secret := by
      apply Fp.toZMod_injective
      have h1 : Fp.toZMod c = (toPoly P (c :: restL)).coeff 0 := by
        rw [toPoly_coeff]
        rfl
      rw [h1, ← hLl, hLF, hF0]
    show (some (c :: restL)).bind (fun poly => Poly.constantTerm poly) = some secret
    simp [Poly.constantTerm, hc]

/-! ## Primality certificates (via the embedded square-and-multiply power) -/

theorem zmod_pow_eq (P : ℕ) [NeZero P] (a e : ℕ) :
    ((a : ℕ) : ZMod P) ^ e = Fp.toZMod (Fp.pow (Fp.new P a) e) := by
  rw [Fp.toZMod_pow, Fp.toZMod_new]

theorem pow_ne_one_of (P : ℕ) [NeZero P] (a e : ℕ)
    (h : Fp.pow (Fp.new P a) e ≠ Fp.one P) : ((a : ℕ) : ZMod P) ^ e ≠ 1 := by
  rw [zmod_pow_eq]
  intro h1
  exact h (Fp.toZMod_injective (by rw [h1, Fp.toZMod_one]))

theorem pow_eq_one_of (P : ℕ) [NeZero P] (a e : ℕ)
    (h : Fp.pow (Fp.new P a) e = Fp.one P) : ((a : ℕ) : ZMod P) ^ e = 1 := by
  rw [zmod_pow_eq, h, Fp.toZMod_one]

/-- The Mersenne number `2147483647 = 2^31 - 1` is prime (Lucas certificate, generator 7;
`p - 1 = 2 * 3^2 * 7 * 11 * 31 * 151 * 331`). -/
theorem prime_2147483647 : Nat.Prime 2147483647 := by
  apply lucas_primality 2147483647 ((7 : ℕ) : ZMod 2147483647)
  · exact pow_eq_one_of _ _ _ (by decide)
  · intro q hq hdvd
    have hfact : (2147483647 - 1 : ℕ) = 2 * (9 * (7 * (11 * (31 * (151 * 331))))) := by
      norm_num
    rw [hfact] at hdvd
    have h2 := hq.two_le
    rcases (Nat.Prime.dvd_mul hq).mp hdvd with h | hdvd
    · have : q = 2 := (Nat.prime_dvd_prime_iff_eq hq (by norm_num)).mp h
      subst this
      exact pow_ne_one_of _ _ _ (by decide)
    rcases (Nat.Prime.dvd_mul hq).mp hdvd with h | hdvd
    · have h3 : q ∣ 3 := hq.dvd_of_dvd_pow (n := 2) (by simpa [pow_two] using h)
      have : q = 3 := (Nat.prime_dvd_prime_iff_eq hq (by norm_num)).mp h3
      subst this
      exact pow_ne_one_of _ _ _ (by decide)
    rcases (Nat.Prime.dvd_mul hq).mp hdvd with h | hdvd
    · have : q = 7 := (Nat.prime_dvd_prime_iff_eq hq (by norm_num)).mp h
      subst this
      exact pow_ne_one_of _ _ _ (by decide)
    rcases (Nat.Prime.dvd_mul hq).mp hdvd with h | hdvd
    · have : q = 11 := (Nat.prime_dvd_prime_iff_eq hq (by norm_num)).mp h
      subst this
      exact pow_ne_one_of _ _ _ (by decide)
    rcases (Nat.Prime.dvd_mul hq).mp hdvd with h | hdvd
    · have : q = 31 := (Nat.prime_dvd_prime_iff_eq hq (by norm_num)).mp h
      subst this
      exact pow_ne_one_of _ _ _ (by decide)
    rcases (Nat.Prime.dvd_mul hq).mp hdvd with h | h
    · have : q = 151 := (Nat.prime_dvd_prime_iff_eq hq (by norm_num)).mp h
      subst this
      exact pow_ne_one_of _ _ _ (by decide)
    · have : q = 331 := (Nat.prime_dvd_prime_iff_eq hq (by norm_num)).mp h
      subst this
      exact pow_ne_one_of _ _ _ (by decide)

/-- The Goldilocks number `18446744069414584321 = 2^64 - 2^32 + 1` is prime (Lucas certificate,
generator 7; `p - 1 = 2^32 * 3 * 5 * 17 * 257 * 65537`).  This prime fits in
`u64` but exceeds `2^63`. -/
theorem prime_goldilocks : Nat.Prime 18446744069414584321 := by
  apply lucas_primality 18446744069414584321 ((7 : ℕ) : ZMod 18446744069414584321)
  · exact pow_eq_one_of _ _ _ (by decide)
  · intro q hq hdvd
    have hfact : (18446744069414584321 - 1 : ℕ)
        = 4294967296 * (3 * (5 * (17 * (257 * 65537)))) := by norm_num
    rw [hfact] at hdvd
    rcases (Nat.Prime.dvd_mul hq).mp hdvd with h | hdvd
    · have h2 : q ∣ 2 := hq.dvd_of_dvd_pow (n := 32) (by
        rw [show ((2 : ℕ) ^ 32 : ℕ) = 4294967296 by norm_num]
        exact h)
      have : q = 2 := (Nat.prime_dvd_prime_iff_eq hq (by norm_num)).mp h2
      subst this
      exact pow_ne_one_of _ _ _ (by decide)
    rcases (Nat.Prime.dvd_mul hq).mp hdvd with h | hdvd
    · have : q = 3 := (Nat.prime_dvd_prime_iff_eq hq (by norm_num)).mp h
      subst this
      exact pow_ne_one_of _ _ _ (by decide)
    rcases (Nat.Prime.dvd_mul hq).mp hdvd with h | hdvd
    · have : q = 5 := (Nat.prime_dvd_prime_iff_eq hq (by norm_num)).mp h
      subst this
      exact pow_ne_one_of _ _ _ (by decide)
    rcases (Nat.Prime.dvd_mul hq).mp hdvd with h | hdvd
    · have : q = 17 := (Nat.prime_dvd_prime_iff_eq hq (by norm_num)).mp h
      subst this
      exact pow_ne_one_of _ _ _ (by decide)
    rcases (Nat.Prime.dvd_mul hq).mp hdvd with h | h
    · have : q = 257 := (Nat.prime_dvd_prime_iff_eq hq (by norm_num)).mp h
      subst this
      exact pow_ne_one_of _ _ _ (by decide)
    · have : q = 65537 := (Nat.prime_dvd_prime_iff_eq hq (by norm_num)).mp h
      subst this
      exact pow_ne_one_of _ _ _ (by decide)

/-! ## Claim theorems -/

theorem nodeX_get (P : ℕ) [NeZero P] (pts : List (Fin P × Fin P)) (a : ℕ)
    (ha : a < pts.length) : nodeX P pts a = (pts.get ⟨a, ha⟩).1 := by
  rw [nodeX, getD_eq_get _ _ _ ha]

/-- Pairwise distinct x-coordinates give index-injectivity of the nodes. -/
theorem pairwise_nodeX_inj (P : ℕ) [NeZero P] (pts : List (Fin P × Fin P))
    (hpw : pts.Pairwise (fun e e2 => e.1 ≠ e2.1)) :
    ∀ a b, a < pts.length → b < pts.length →
      nodeX P pts a = nodeX P pts b → a = b := by
  rw [List.pairwise_iff_getElem] at hpw
  intro a b ha hb hx
  rw [nodeX_get P pts a ha, nodeX_get P pts b hb] at hx
  by_contra hne
  rcases Nat.lt_or_ge a b with h | h
  · exact hpw a b ha hb h (by simpa [List.get_eq_getElem] using hx)
  · have h2 : b < a := by omega
    exact hpw b a hb ha h2 (by simpa [List.get_eq_getElem] using hx.symm)

/-- C9: the `lagrange_interpolation` defined directly in polynomial/mod.rs
returns the zero polynomial on every input: its outer loop has an empty body,
so the `Polynomial::zero()` accumulator is returned unchanged. -/
theorem claim_c9 {T : Type} (points : List (T × T)) : lagrangeModRs points = [] := by
  have hfold : ∀ (l : List (T × T)) (a : List T), l.foldl (fun poly _ => poly) a = a := by
    intro l
    induction l with
    | nil => intro a; rfl
    | cons x l ih => intro a; rw [List.foldl_cons]; exact ih a
  rw [lagrangeModRs]
  by_cases h : points.isEmpty
  · rw [if_pos h]
  · rw [if_neg h, hfold]

/-- C10: calling `split_secret` with threshold 0 never returns shares: the
guard only rejects `threshold > number_of_shares`, so 0 passes it, and
`share_threshold - 1` underflows `usize` (a checked-arithmetic failure)
before any share is produced. -/
theorem claim_c10 (P : ℕ) [NeZero P] (secret : Fin P) (n : ℕ) (draws : List ℕ) :
    splitSecret P secret 0 n draws = none := by
  rw [splitSecret, if_neg (by omega), buildPoly, buildGo,
    show checkedSubUsize 0 1 = none from rfl]
  rfl

/-- C2 (code bug): `from_coeffs` stores the coefficient list as given and
does NOT strip trailing zeros, so appending a zero yields a polynomial that
is not equal (derived `PartialEq`) to the stripped one and whose last stored
coefficient is the zero element, while `normalize` would strip it. -/
theorem claim_c2 :
    Poly.fromCoeffs [Fp.one 17, Fp.zero 17] ≠ Poly.fromCoeffs [Fp.one 17]
    ∧ (Poly.fromCoeffs [Fp.one 17, Fp.zero 17]).getLast? = some (Fp.zero 17)
    ∧ Poly.normalize (fpOps 17) [Fp.one 17, Fp.zero 17] = [Fp.one 17] := by
  refine ⟨by decide, by decide, by decide⟩

/-- C7 (code bug): with threshold 2 over `Fp<2>` and a randomness source that
draws 0, the construction loop accepts the polynomial `[1, 0]` on the first
attempt — its reported `degree()` is `t - 1 = 1` because `from_coeffs` never
strips the zero leading coefficient — even though the leading coefficient is
the zero element and the true degree (after normalization) is 0 < t - 1.
The claimed retry never happens. -/
theorem claim_c7 :
    buildPoly 2 (Fp.new 2 1) 2 [0] = some [Fp.new 2 1, Fp.new 2 0]
    ∧ Fp.new 2 0 = Fp.zero 2
    ∧ Poly.degree (Poly.fromCoeffs [Fp.new 2 1, Fp.new 2 0]) = some 1
    ∧ Poly.normalize (fpOps 2) [Fp.new 2 1, Fp.new 2 0] = [Fp.new 2 1] := by
  refine ⟨by decide, by decide, by decide, by decide⟩

/-- C8: inverting the additive identity fails (`none`), division by the zero
element propagates that failure, and interpolation over a point list with two
equal x-coordinates at distinct indices surfaces the same field-inversion
failure as `none` instead of returning a polynomial. -/
theorem claim_c8 (P : ℕ) [NeZero P] :
    Fp.inverse (Fp.zero P) = none
    ∧ (∀ a : Fin P, Fp.div a (Fp.zero P) = none)
    ∧ (∀ (pts : List (Fin P × Fin P)) (a b : ℕ), a < pts.length → b < pts.length →
        a ≠ b → nodeX P pts a = nodeX P pts b →
        lagrangeInterpolation P pts = none) := by
  refine ⟨Fp.inverse_zero, fun a => Fp.div_zero_right a, ?_⟩
  intro pts a b ha hb hab hx
  exact lagrangeInterpolation_none_of_dup P pts a b ha hb hab hx

theorem claim_c8_witness :
    Fp.inverse (Fp.zero 17) = none
    ∧ Fp.div (Fp.new 17 3) (Fp.zero 17) = none
    ∧ lagrangeInterpolation 17
        [(Fp.new 17 1, Fp.new 17 2), (Fp.new 17 1, Fp.new 17 5)] = none := by
  obtain ⟨h1, h2, h3⟩ := claim_c8 17
  exact ⟨h1, h2 (Fp.new 17 3),
    h3 [(Fp.new 17 1, Fp.new 17 2), (Fp.new 17 1, Fp.new 17 5)] 0 1
      (by decide) (by decide) (by decide) (by decide)⟩

/-- C5: for prime `P` and nonzero `a`, the embedded inverse succeeds, its
stored value is `a^(P-2) mod P`, and `a * inverse(a)` is the multiplicative
identity. -/
theorem claim_c5 (P : ℕ) [NeZero P] (hP : P.Prime) (a : Fin P)
    (ha : a ≠ Fp.zero P) :
    ∃ b, Fp.inverse a = some b ∧ b.val = a.val ^ (P - 2) % P
      ∧ Fp.mul a b = Fp.one P := by
  haveI : Fact P.Prime := ⟨hP⟩
  obtain ⟨b, hsome, hinv⟩ := Fp.toZMod_inverse hP a ha
  have haval : a.val ≠ 0 := fun h => ha (Fin.ext (by simpa [Fp.zero] using h))
  have hb : b = Fp.pow a (P - 2) := by
    rw [Fp.inverse, if_neg haval] at hsome
    exact (Option.some.inj hsome).symm
  refine ⟨b, hsome, ?_, ?_⟩
  · have h2 : Fp.toZMod b = ((a.val ^ (P - 2) : ℕ) : ZMod P) := by
      rw [hb, Fp.toZMod_pow, Fp.toZMod, Nat.cast_pow]
    have h3 := congrArg ZMod.val h2
    rw [Fp.toZMod, ZMod.val_cast_of_lt b.isLt, ZMod.val_natCast] at h3
    exact h3
  · apply Fp.toZMod_injective
    have haz : Fp.toZMod a ≠ 0 := by
      rw [Ne, Fp.toZMod_eq_zero_iff]
      exact ha
    rw [Fp.toZMod_mul, hinv, mul_inv_cancel₀ haz, Fp.toZMod_one]

theorem claim_c5_witness :
    ∃ b, Fp.inverse (Fp.new 17 5) = some b ∧ b.val = (Fp.new 17 5).val ^ (17 - 2) % 17
      ∧ Fp.mul (Fp.new 17 5) b = Fp.one 17 :=
  claim_c5 17 (by norm_num) (Fp.new 17 5) (by decide)

/-- C4 (amended): for every modulus `P ≤ 2^63` (so in particular every such
prime) and field elements `a`, `b`, the checked-`u64` addition, subtraction
and multiplication all succeed, match the in-field operations, and equal the
modular results computed independently in `ℕ`. -/
theorem claim_c4 (P : ℕ) (hP : P ≤ 2 ^ 63) (a b : Fin P) :
    Fp.addU64 P a.val b.val = some ((a.val + b.val) % P)
    ∧ Fp.addU64 P a.val b.val = some ((Fp.add a b).val)
    ∧ Fp.subU64 P a.val b.val = some ((P + a.val - b.val) % P)
    ∧ Fp.subU64 P a.val b.val = some ((Fp.sub a b).val)
    ∧ Fp.mulU64 P a.val b.val = some ((a.val * b.val) % P)
    ∧ Fp.mulU64 P a.val b.val = some ((Fp.mul a b).val) := by
  have ha := a.isLt
  have hb := b.isLt
  have hfit : a.val + b.val < 2 ^ 64 := by
    have h63 : (2 : ℕ) ^ 63 + 2 ^ 63 ≤ 2 ^ 64 := by norm_num
    omega
  have hadd : Fp.addU64 P a.val b.val
      = some (if P ≤ a.val + b.val then a.val + b.val - P else a.val + b.val) := by
    rw [Fp.addU64, Fp.checkedAdd, if_pos hfit]
    rfl
  have haddval : (if P ≤ a.val + b.val then a.val + b.val - P else a.val + b.val)
      = (a.val + b.val) % P := by
    by_cases h : P ≤ a.val + b.val
    · rw [if_pos h, Nat.mod_eq_sub_mod h, Nat.mod_eq_of_lt (by omega)]
    · rw [if_neg h, Nat.mod_eq_of_lt (by omega)]
  refine ⟨?_, ?_, ?_, ?_, ?_, ?_⟩
  · rw [hadd, haddval]
  · rw [hadd]
    congr 1
    rw [Fp.add]
    by_cases h : P ≤ a.val + b.val
    · rw [dif_pos h, if_pos h]
    · rw [dif_neg h, if_neg h]
  · rw [Fp.subU64]
    by_cases h : b.val ≤ a.val
    · rw [if_pos h]
      congr 1
      have h1 : P + a.val - b.val = (a.val - b.val) + P := by omega
      rw [h1, Nat.add_mod_right, Nat.mod_eq_of_lt (by omega)]
    · rw [if_neg h, Fp.checkedAdd, if_pos (by omega : a.val + P < 2 ^ 64)]
      show some (a.val + P - b.val) = some ((P + a.val - b.val) % P)
      congr 1
      rw [Nat.mod_eq_of_lt (by omega)]
      omega
  · rw [Fp.subU64, Fp.sub]
    by_cases h : b.val ≤ a.val
    · rw [if_pos h, dif_pos h]
    · rw [if_neg h, dif_neg h, Fp.checkedAdd, if_pos (by omega : a.val + P < 2 ^ 64)]
      rfl
  · rfl
  · rfl

theorem claim_c4_witness : Fp.addU64 17 5 9 = some 14 := by
  have h := (claim_c4 17 (by norm_num) (Fp.new 17 5) (Fp.new 17 9)).1
  simpa using h

/-- C4 counterexample: the Goldilocks prime `2^64 - 2^32 + 1` is a prime
modulus representable in `u64`, yet adding `P-1` to itself overflows the
`u64` sum `self.0 + other.0`, so the addition fails instead of storing
`(a + b) mod P`. -/
theorem claim_c4_counterexample :
    Nat.Prime 18446744069414584321
    ∧ 18446744069414584321 < 2 ^ 64
    ∧ Fp.addU64 18446744069414584321 18446744069414584320 18446744069414584320 = none
    ∧ Fp.addU64 18446744069414584321 18446744069414584320 18446744069414584320
        ≠ some ((18446744069414584320 + 18446744069414584320) % 18446744069414584321) := by
  refine ⟨prime_goldilocks, by norm_num, by decide, by decide⟩

/-- C3 (amended): for a prime modulus `P ≤ 2^63` (the domain on which the
source's `u64` field additions and subtractions cannot overflow, so the
total embedding agrees with the checked source arithmetic —
`Fp.addU64_eq_add`, `Fp.subU64_eq_sub`) and pairwise distinct
x-coordinates, the lagrange-module interpolation succeeds with a polynomial
that evaluates to `y_i` at every `x_i` and has at most `n` coefficients
(degree at most `n - 1`); on zero points it returns the zero polynomial. -/
theorem claim_c3 (P : ℕ) [NeZero P] (hP : P.Prime) (_hbound : P ≤ 2 ^ 63)
    (pts : List (Fin P × Fin P))
    (hpw : pts.Pairwise (fun e e2 => e.1 ≠ e2.1)) :
    (∃ L, lagrangeInterpolation P pts = some L
      ∧ (∀ k, k < pts.length →
          Poly.evaluate (fpOps P) (nodeX P pts k) L = nodeY P pts k)
      ∧ L.length ≤ pts.length
      ∧ (Poly.degree L = none ∨ ∃ d, Poly.degree L = some d ∧ d + 1 ≤ pts.length))
    ∧ lagrangeInterpolation P ([] : List (Fin P × Fin P)) = some [] := by
  constructor
  · have hinj := pairwise_nodeX_inj P pts hpw
    obtain ⟨L, hL, hLt, hLpoly⟩ := lagrangeInterpolation_spec P hP pts hinj
    have hlenL : L.length ≤ pts.length := by
      rcases interpSum_degree_lt P pts with h | h
      · exact trimmed_length_le P L hLt pts.length (by rw [hLpoly]; exact_mod_cast h)
      · have hpts0 : pts = [] := List.length_eq_zero.mp h
        subst hpts0
        have hxe : lagrangeInterpolation P ([] : List (Fin P × Fin P)) = some [] := rfl
        rw [hL] at hxe
        rw [Option.some.inj hxe]
        exact le_rfl
    refine ⟨L, hL, ?_, hlenL, ?_⟩
    · intro k hk
      apply Fp.toZMod_injective
      rw [toZMod_evaluate, hLpoly, interpSum_eval P hP pts hinj k hk]
    · cases hL2 : L with
      | nil => exact Or.inl rfl
      | cons c r =>
        refine Or.inr ⟨r.length, rfl, ?_⟩
        have h2 := hlenL
        rw [hL2] at h2
        simpa using h2
  · rfl

theorem claim_c3_witness :
    (∃ L, lagrangeInterpolation 17
        [(Fp.new 17 1, Fp.new 17 2), (Fp.new 17 3, Fp.new 17 4)] = some L
      ∧ (∀ k, k < ([(Fp.new 17 1, Fp.new 17 2), (Fp.new 17 3, Fp.new 17 4)]
            : List (Fin 17 × Fin 17)).length →
          Poly.evaluate (fpOps 17)
              (nodeX 17 [(Fp.new 17 1, Fp.new 17 2), (Fp.new 17 3, Fp.new 17 4)] k) L
            = nodeY 17 [(Fp.new 17 1, Fp.new 17 2), (Fp.new 17 3, Fp.new 17 4)] k)
      ∧ L.length ≤ ([(Fp.new 17 1, Fp.new 17 2), (Fp.new 17 3, Fp.new 17 4)]
            : List (Fin 17 × Fin 17)).length
      ∧ (Poly.degree L = none ∨ ∃ d, Poly.degree L = some d
          ∧ d + 1 ≤ ([(Fp.new 17 1, Fp.new 17 2), (Fp.new 17 3, Fp.new 17 4)]
            : List (Fin 17 × Fin 17)).length)) :=
  (claim_c3 17 (by norm_num) (by norm_num)
    [(Fp.new 17 1, Fp.new 17 2), (Fp.new 17 3, Fp.new 17 4)]
    (by decide)).1

/-- C3 counterexample: for the Goldilocks prime `P = 2^64 - 2^32 + 1` and
the pairwise distinct nodes `x_0 = 2^32`, `x_1 = 2^32 + 1`, the very first
denominator factor the interpolation computes is `x_0 - x_1`; since
`x_0 < x_1` the source's `Sub for Fp` takes the `(self.0 + P) - other.0`
branch, and `self.0 + P = 2^32 + P ≥ 2^64` overflows the `u64` sum, so the
program fails where the unrestricted claim promises an exact interpolant. -/
theorem claim_c3_counterexample :
    Nat.Prime 18446744069414584321
    ∧ Fp.new 18446744069414584321 4294967296 ≠ Fp.new 18446744069414584321 4294967297
    ∧ Fp.subU64 18446744069414584321
        (Fp.new 18446744069414584321 4294967296).val
        (Fp.new 18446744069414584321 4294967297).val = none := by
  refine ⟨prime_goldilocks, by decide, by decide⟩

theorem claim_c1_witness :
    reconstructSecret 2147483647
      ([0, 2, 4].map (fun i =>
        ([(Fp.new 2147483647 1, Fp.new 2147483647 123457122),
          (Fp.new 2147483647 2, Fp.new 2147483647 123457899),
          (Fp.new 2147483647 3, Fp.new 2147483647 123459120),
          (Fp.new 2147483647 4, Fp.new 2147483647 123460785),
          (Fp.new 2147483647 5, Fp.new 2147483647 123462894)].getD i
            (Fp.zero 2147483647, Fp.zero 2147483647))))
      = some (Fp.new 2147483647 123456789) :=
  claim_c1 2147483647 3 5 prime_2147483647 (by norm_num)
    (Fp.new 2147483647 123456789)
    [111, 222] (by norm_num) (by norm_num) (by norm_num) (by norm_num)
    (by decide)
    [(Fp.new 2147483647 1, Fp.new 2147483647 123457122),
     (Fp.new 2147483647 2, Fp.new 2147483647 123457899),
     (Fp.new 2147483647 3, Fp.new 2147483647 123459120),
     (Fp.new 2147483647 4, Fp.new 2147483647 123460785),
     (Fp.new 2147483647 5, Fp.new 2147483647 123462894)]
    (by decide)
    [0, 2, 4] (by decide) (by decide) (by decide)

/-- C1 counterexample: with prime modulus 3, threshold 4 and 4 shares, the
abscissas `1, 2, 3, 4` collide mod 3, so reconstructing from all `t = 4`
shares hits a zero interpolation denominator and fails instead of returning
the secret. -/
theorem claim_c1_counterexample :
    Nat.Prime 3
    ∧ splitSecret 3 (Fp.new 3 1) 4 4 [1, 1, 1]
        = some [(Fp.new 3 1, Fp.new 3 1), (Fp.new 3 2, Fp.new 3 0),
                (Fp.new 3 3, Fp.new 3 1), (Fp.new 3 4, Fp.new 3 1)]
    ∧ reconstructSecret 3
        [(Fp.new 3 1, Fp.new 3 1), (Fp.new 3 2, Fp.new 3 0),
         (Fp.new 3 3, Fp.new 3 1), (Fp.new 3 4, Fp.new 3 1)] = none := by
  refine ⟨by norm_num, by decide, by decide⟩

/-! ## Generic convolution entries (for C6) -/

namespace Poly

variable {T : Type}

/-- The canonical guarded sum `Σ_{i < n, g i} f i` rendered as a right fold. -/
def guardSum (R : RingOps T) (n : ℕ) (g : ℕ → Prop) [DecidablePred g] (f : ℕ → T) : T :=
  ((List.range n).map (fun i => if g i then f i else R.zero)).foldr R.add R.zero

theorem foldl_if_eq_foldr (R : RingOps T) (g : ℕ → Prop) [DecidablePred g] (f : ℕ → T)
    (hza : ∀ x, R.add R.zero x = x) (haz : ∀ x, R.add x R.zero = x)
    (has : ∀ x y z, R.add (R.add x y) z = R.add x (R.add y z)) :
    ∀ (l : List ℕ) (a : T),
      l.foldl (fun acc i => if g i then R.add acc (f i) else acc) a
        = R.add a ((l.map (fun i => if g i then f i else R.zero)).foldr R.add R.zero) := by
  intro l
  induction l with
  | nil =>
    intro a
    rw [List.foldl_nil, List.map_nil, List.foldr_nil, haz]
  | cons i l ih =>
    intro a
    rw [List.foldl_cons, List.map_cons, List.foldr_cons, ih]
    by_cases hg : g i
    · rw [if_pos hg, if_pos hg, has]
    · rw [if_neg hg, if_neg hg, hza]

theorem guardSum_congr (R : RingOps T) (n : ℕ) (g g2 : ℕ → Prop)
    [DecidablePred g] [DecidablePred g2] (f : ℕ → T)
    (h : ∀ i, i < n → (g i ↔ g2 i)) : guardSum R n g f = guardSum R n g2 f := by
  unfold guardSum
  congr 1
  apply List.map_congr_left
  intro i hi
  rw [List.mem_range] at hi
  by_cases hg : g i
  · rw [if_pos hg, if_pos ((h i hi).mp hg)]
  · rw [if_neg hg, if_neg (fun h2 => hg ((h i hi).mpr h2))]

theorem guardSum_extend (R : RingOps T) (g : ℕ → Prop) [DecidablePred g] (f : ℕ → T)
    (hza : ∀ x, R.add R.zero x = x) :
    ∀ (n m : ℕ), m ≤ n → (∀ i, m ≤ i → i < n → ¬ g i) →
      guardSum R n g f = guardSum R m g f := by
  intro n
  induction n with
  | zero =>
    intro m hm _
    have : m = 0 := Nat.le_zero.mp hm
    rw [this]
  | succ n ih =>
    intro m hm hfalse
    rcases Nat.eq_or_lt_of_le hm with heq | hlt
    · rw [heq]
    · have hmn : m ≤ n := by omega
      have hgn : ¬ g n := hfalse n hmn (by omega)
      have hstep : guardSum R (n + 1) g f = guardSum R n g f := by
        unfold guardSum
        rw [List.range_succ, List.map_append, List.foldr_append, List.map_singleton,
          List.foldr_cons, List.foldr_nil, if_neg hgn, hza]
      rw [hstep]
      exact ih m hmn (fun i hi hin => hfalse i hi (by omega))

theorem foldl_guard_false (R : RingOps T) (g : ℕ → Prop) [DecidablePred g] (f : ℕ → T) :
    ∀ (l : List ℕ) (a : T), (∀ i ∈ l, ¬ g i) →
      l.foldl (fun acc i => if g i then R.add acc (f i) else acc) a = a := by
  intro l
  induction l with
  | nil => intro a _; rfl
  | cons i l ih =>
    intro a h
    rw [List.foldl_cons, if_neg (h i (List.mem_cons_self i l))]
    exact ih a (fun j hj => h j (List.mem_cons_of_mem _ hj))

theorem getLast?_getD {A : Type} (l : List A) (x d : A) (h : l.getLast? = some x) :
    l.getD (l.length - 1) d = x := by
  rw [List.getD_eq_getElem?_getD, ← List.getLast?_eq_getElem?, h]
  rfl

theorem getLast?_map_range {A : Type} (n : ℕ) (f : ℕ → A) (hn : 1 ≤ n) :
    ((List.range n).map f).getLast? = some (f (n - 1)) := by
  rw [List.getLast?_eq_getElem?, List.length_map, List.length_range,
    List.getElem?_map, List.getElem?_range (by omega)]
  rfl

end Poly

/-- C6 (amended): over any coefficient type whose addition is a monoid
(zero identities and associativity — part of the claim's ring contract), if
both operands are nonzero and the product of their highest-index
coefficients is nonzero, the product's coefficient list has length
`len_p + len_q - 1` and entry `k` is the sum over all `i + j = k` of
`p[i] * q[j]`; if either operand is the zero polynomial the product is the
zero polynomial; and the concrete `Fp<17>` convolution holds. -/
theorem claim_c6 {T : Type} [DecidableEq T] (R : RingOps T)
    (hza : ∀ x, R.add R.zero x = x)
    (haz : ∀ x, R.add x R.zero = x)
    (has : ∀ x y z, R.add (R.add x y) z = R.add x (R.add y z)) :
    (∀ (p q : List T) (x y : T), p.getLast? = some x → q.getLast? = some y →
        R.mul x y ≠ R.zero →
        (Poly.polyMul R p q).length = p.length + q.length - 1
        ∧ ∀ k, k < p.length + q.length - 1 →
            (Poly.polyMul R p q).getD k R.zero
              = Poly.guardSum R (k + 1)
                  (fun i => i < p.length ∧ k - i < q.length)
                  (fun i => R.mul (p.getD i R.zero) (q.getD (k - i) R.zero)))
    ∧ (∀ q : List T, Poly.polyMul R [] q = [] ∧ Poly.polyMul R q [] = [])
    ∧ Poly.polyMul (fpOps 17) [Fp.new 17 11, Fp.new 17 0, Fp.new 17 3]
        [Fp.new 17 13, Fp.new 17 5]
        = [Fp.new 17 7, Fp.new 17 4, Fp.new 17 5, Fp.new 17 15] := by
  refine ⟨?_, ?_, by decide⟩
  · intro p q x y hx hy hxy
    have hp : p ≠ [] := by
      intro h
      rw [h] at hx
      simp at hx
    have hq : q ≠ [] := by
      intro h
      rw [h] at hy
      simp at hy
    have hplen : 1 ≤ p.length := List.length_pos.mpr hp
    have hqlen : 1 ≤ q.length := List.length_pos.mpr hq
    have hlastEntry : Poly.convEntry R p q (p.length + q.length - 2) = R.mul x y := by
      unfold Poly.convEntry
      have hr : List.range p.length = List.range (p.length - 1) ++ [p.length - 1] := by
        rw [← List.range_succ]
        congr 1
        omega
      rw [hr, List.foldl_append,
        Poly.foldl_guard_false R _ _ (List.range (p.length - 1)) R.zero (by
          intro i hi
          rw [List.mem_range] at hi
          intro hcon
          omega),
        List.foldl_cons, List.foldl_nil, if_pos (by constructor <;> omega), hza,
        Poly.getLast?_getD p x R.zero hx,
        show p.length + q.length - 2 - (p.length - 1) = q.length - 1 by omega,
        Poly.getLast?_getD q y R.zero hy]
    have hconvLast : (Poly.convolve R p q).getLast? = some (R.mul x y) := by
      rw [Poly.convolve, Poly.getLast?_map_range _ _ (by omega),
        show p.length + q.length - 1 - 1 = p.length + q.length - 2 by omega, hlastEntry]
    have hnorm : Poly.normalize R (Poly.convolve R p q) = Poly.convolve R p q :=
      Poly.normalize_idem R _ (by
        intro z hz
        rw [hconvLast] at hz
        cases Option.some.inj hz
        exact hxy)
    have hmul : Poly.polyMul R p q = Poly.convolve R p q := by
      cases p with
      | nil => exact absurd rfl hp
      | cons a p2 =>
        cases q with
        | nil => exact absurd rfl hq
        | cons c q2 =>
          rw [show Poly.polyMul R (a :: p2) (c :: q2)
              = Poly.normalize R (Poly.convolve R (a :: p2) (c :: q2)) from rfl]
          exact hnorm
    constructor
    · rw [hmul, Poly.convolve, List.length_map, List.length_range]
    · intro k hk
      rw [hmul, Poly.convolve, getD_map_range _ _ _ _ hk]
      have hce : Poly.convEntry R p q k
          = Poly.guardSum R p.length (fun i => i ≤ k ∧ k - i < q.length)
              (fun i => R.mul (p.getD i R.zero) (q.getD (k - i) R.zero)) := by
        unfold Poly.convEntry Poly.guardSum
        rw [Poly.foldl_if_eq_foldr R _ _ hza haz has (List.range p.length) R.zero, hza]
      rw [hce]
      set f : ℕ → T := fun i => R.mul (p.getD i R.zero) (q.getD (k - i) R.zero) with hfdef
      have e2 : Poly.guardSum R p.length (fun i => i ≤ k ∧ k - i < q.length) f
          = Poly.guardSum R p.length
              (fun i => i < p.length ∧ (i ≤ k ∧ k - i < q.length)) f := by
        apply Poly.guardSum_congr
        intro i hi
        constructor
        · intro h2
          exact ⟨hi, h2⟩
        · intro h2
          exact h2.2
      have e1 : Poly.guardSum R p.length
            (fun i => i < p.length ∧ (i ≤ k ∧ k - i < q.length)) f
          = Poly.guardSum R (p.length + q.length)
              (fun i => i < p.length ∧ (i ≤ k ∧ k - i < q.length)) f := by
        symm
        apply Poly.guardSum_extend R _ f hza (p.length + q.length) p.length (by omega)
        intro i hi _ hcon
        omega
      have e5 : Poly.guardSum R (p.length + q.length)
            (fun i => i < p.length ∧ (i ≤ k ∧ k - i < q.length)) f
          = Poly.guardSum R (p.length + q.length)
              (fun i => i ≤ k ∧ (i < p.length ∧ k - i < q.length)) f := by
        apply Poly.guardSum_congr
        intro i _
        constructor
        · intro h2
          exact ⟨h2.2.1, h2.1, h2.2.2⟩
        · intro h2
          exact ⟨h2.2.1, h2.1, h2.2.2⟩
      have e3 : Poly.guardSum R (p.length + q.length)
            (fun i => i ≤ k ∧ (i < p.length ∧ k - i < q.length)) f
          = Poly.guardSum R (k + 1)
              (fun i => i ≤ k ∧ (i < p.length ∧ k - i < q.length)) f := by
        apply Poly.guardSum_extend R _ f hza (p.length + q.length) (k + 1) (by omega)
        intro i hi _ hcon
        omega
      have e4 : Poly.guardSum R (k + 1)
            (fun i => i ≤ k ∧ (i < p.length ∧ k - i < q.length)) f
          = Poly.guardSum R (k + 1)
              (fun i => i < p.length ∧ k - i < q.length) f := by
        apply Poly.guardSum_congr
        intro i hi
        constructor
        · intro h2
          exact h2.2
        · intro h2
          exact ⟨by omega, h2⟩
      rw [e2, e1, e5, e3, e4]
  · intro q
    constructor
    · cases q with
      | nil => rfl
      | cons c q2 => rfl
    · cases q with
      | nil => rfl
      | cons c q2 => rfl

theorem claim_c6_witness :
    (Poly.polyMul (fpOps 17) [Fp.new 17 11, Fp.new 17 0, Fp.new 17 3]
        [Fp.new 17 13, Fp.new 17 5]).length
      = ([Fp.new 17 11, Fp.new 17 0, Fp.new 17 3] : List (Fin 17)).length
        + ([Fp.new 17 13, Fp.new 17 5] : List (Fin 17)).length - 1 :=
  ((claim_c6 (fpOps 17) (by decide) (by decide) (by decide)).1
    [Fp.new 17 11, Fp.new 17 0, Fp.new 17 3] [Fp.new 17 13, Fp.new 17 5]
    (Fp.new 17 3) (Fp.new 17 5) (by decide) (by decide) (by decide)).1

/-- C6 counterexample: over `Fp<17>`, the operands `[1, 0]` and `[1]` are
both nonzero according to the code (`degree()` is defined on both, because
`from_coeffs` keeps the trailing zero), yet the product's coefficient list
has length 1, not `len_p + len_q - 1 = 2`: the final `normalize` strips the
zero leading coefficient. -/
theorem claim_c6_counterexample :
    Poly.degree (Poly.fromCoeffs [Fp.one 17, Fp.zero 17]) ≠ none
    ∧ Poly.degree (Poly.fromCoeffs [Fp.one 17]) ≠ none
    ∧ (Poly.polyMul (fpOps 17) (Poly.fromCoeffs [Fp.one 17, Fp.zero 17])
        (Poly.fromCoeffs [Fp.one 17])).length
      ≠ (Poly.fromCoeffs [Fp.one 17, Fp.zero 17] : List (Fin 17)).length
        + (Poly.fromCoeffs [Fp.one 17] : List (Fin 17)).length - 1 := by
  refine ⟨by decide, by decide, by decide⟩

theorem claim_c10_witness : splitSecret 17 (Fp.new 17 3) 0 5 [1, 2] = none :=
  claim_c10 17 (Fp.new 17 3) 5 [1, 2]
